import Mathlib

/-!
# Verification of the automaton engine `automataC.c`

A shallow embedding of the automaton-manipulation core of
`src/sage/combinat/words/automataC.c`, together with theorems settling the
frozen claims about it.

Conventions of the embedding:

* C `int` array entries become `Int` (`-1` denotes `ABSENT`).
* The struct `Etat` / `Automate` of `Automaton.h` is not present in the
  sources; its fields are modelled from the spec (§3 of the spec): a
  transition row `f` (one entry per letter, `-1` = absent) and an integer
  finality field `final` that is a boolean (0/1) at the API boundary but is
  temporarily overloaded with marker bits (2, 4) during traversals.
* Functions that mutate their argument's `final` field thread the automaton
  value explicitly and return the post-call automaton alongside the result.
* C recursions whose termination rests on visited-marking get a `fuel`
  parameter; top-level wrappers pass fuel that dominates the real recursion
  depth.  The theorems below either hold for every fuel or come with
  explicit fuel-sufficiency arguments.
* Out-of-bounds array reads are modelled by `getD` defaults and
  out-of-bounds writes by dropped `List.set`s (the corresponding C executions
  are undefined behaviour; each such spot is commented at its definition).
-/

namespace AC

/-- Modelled from the spec: the per-state record (`Etat`) of the missing
`Automaton.h`.  `f` is the transition row (entry `j` is the target of
letter `j`, `-1` if absent); `final` is the finality flag, an integer that
carries the boolean in bit 0 and scratch marker bits above it. -/
structure Etat where
  f : List Int
  final : Nat
deriving DecidableEq, Repr

instance : Inhabited Etat := ⟨⟨[], 0⟩⟩

/-- Modelled from the spec: the `Automate` record of the missing
`Automaton.h`: state list `e` (the C stores a length `n` alongside a
pointer; here `n` is the length of `e`), alphabet size `na`, and initial
state `i` (`-1` if absent). -/
structure Automaton where
  e : List Etat
  na : Nat
  i : Int
deriving DecidableEq, Repr

/-- State count `a.n` of the C struct. -/
def Automaton.n (a : Automaton) : Nat := a.e.length

/-- Read the state record at (possibly out-of-range) index `s`. -/
def Automaton.state (a : Automaton) (s : Int) : Etat :=
  if s < 0 then default else a.e.getD s.toNat default

/-- `a.e[s].f[j]`: transition of state `s` under letter `j` (`-1` if absent,
and by the `getD` convention also for out-of-range reads). -/
def Automaton.trans (a : Automaton) (s : Int) (j : Int) : Int :=
  if j < 0 then -1 else (a.state s).f.getD j.toNat (-1)

/-- `a.e[s].final` as a raw integer (bit 0 = finality, higher bits =
scratch marks). -/
def Automaton.finalv (a : Automaton) (s : Int) : Nat := (a.state s).final

/-- Write the finality field of state `s` (no-op when out of range;
the only C call sites writing out of range are flagged where they occur). -/
def Automaton.setFinal (a : Automaton) (s : Int) (v : Nat) : Automaton :=
  if s < 0 then a
  else { a with e := a.e.set s.toNat { a.e.getD s.toNat default with final := v } }

/-- Write entry `j` of the transition row of state `s` (no-op out of range). -/
def Automaton.setTrans (a : Automaton) (s : Int) (j : Int) (v : Int) : Automaton :=
  if s < 0 ∨ j < 0 then a
  else
    { a with
      e := a.e.set s.toNat
        (let et := a.e.getD s.toNat default
         { et with f := et.f.set j.toNat v }) }

/-- The boolean finality fields are clean (no scratch bits), as required at
every public entry point. -/
def IsClean (a : Automaton) : Prop := ∀ et ∈ a.e, et.final ≤ 1

instance (a : Automaton) : Decidable (IsClean a) := List.decidableBAll _ a.e

/-- Every transition row has exactly `na` entries (spec §3 invariant). -/
def WellFormed (a : Automaton) : Prop := ∀ et ∈ a.e, et.f.length = a.na

instance (a : Automaton) : Decidable (WellFormed a) := List.decidableBAll _ a.e

/-- The C `Dict` (`int *e; int n;`): a list of integers, `-1` = no image. -/
structure Dict where
  e : List Int
deriving DecidableEq, Repr

/-- `d.n` of the C struct. -/
def Dict.n (d : Dict) : Nat := d.e.length

/-- `d.e[j]` with the `-1` default for out-of-range reads. -/
def Dict.get (d : Dict) (j : Int) : Int :=
  if j < 0 then -1 else d.e.getD j.toNat (-1)

/-- The identity dictionary on an alphabet of `na` letters. -/
def idDict (na : Nat) : Dict := ⟨(List.range na).map Int.ofNat⟩

/-! ## Language-level notions (specification side)

Acceptance and reachability, used to state language-level claims. -/

/-- One transition step of the underlying graph: some letter `j < a.na`
carries `s` to `t` (in particular `t ≠ -1`). -/
def stepR (a : Automaton) (s t : Int) : Prop :=
  ∃ j : Nat, j < a.na ∧ a.trans s (j : Int) = t ∧ t ≠ -1

/-- The state reached from `s` on input word `w` (`-1` once a transition is
absent, and absorbing from `-1`). -/
def deltaW (a : Automaton) : Int → List Nat → Int
  | s, [] => s
  | s, x :: w => if s < 0 then -1 else deltaW a (a.trans s (x : Int)) w

/-- The automaton accepts the word `w` (letters are indices `< na`). -/
def accepts (a : Automaton) (w : List Nat) : Prop :=
  a.i ≠ -1 ∧ deltaW a a.i w ≠ -1 ∧ a.finalv (deltaW a a.i w) % 2 = 1

/-- `s` is reachable from the initial state. -/
def reachableFromInit (a : Automaton) (s : Int) : Prop :=
  a.i ≠ -1 ∧ Relation.ReflTransGen (stepR a) a.i s

/-- Some infinite run starts at `s`: `s` lies on or can reach a cycle of the
transition graph. -/
def reachesCycle (a : Automaton) (s : Int) : Prop :=
  ∃ t, Relation.ReflTransGen (stepR a) s t ∧ Relation.TransGen (stepR a) t t

/-! ## `DeleteVertex` / `DeleteVertexOP` (automataC.c:2243-2293) -/

/-- Shared row surgery of the two vertex-deletion functions: the row of the
surviving state that had index `i + (i >= e)`, with every target `f`
rewritten to `f - (f >= e)`, or `-1` if `f = e`. -/
def deleteRow (a : Automaton) (ev : Int) (i : Nat) : Etat :=
  let oi : Int := (i : Int) + (if (i : Int) ≥ ev then 1 else 0)
  { f := (List.range a.na).map (fun (j : Nat) =>
      let fv := a.trans oi ((j : Nat) : Int)
      if fv ≠ ev then fv - (if fv ≥ ev then 1 else 0) else -1),
    final := a.finalv oi }

/-- `DeleteVertex` (automataC.c:2273): fresh `(n-1)`-state automaton.  Note
the initial state is always rewritten as `a.i - (a.i >= e)` — there is no
special case for `a.i = e`. -/
def DeleteVertex (a : Automaton) (ev : Int) : Automaton :=
  { e := (List.range (a.n - 1)).map (deleteRow a ev),
    na := a.na,
    i := a.i - (if a.i ≥ ev then 1 else 0) }

/-- `DeleteVertexOP` (automataC.c:2243): in-place variant.  When the state
count drops to zero the C frees the rows and returns at once, leaving the
initial pointer as it was; otherwise the initial pointer is set to `-1` when
the deleted state was initial. -/
def DeleteVertexOP (a : Automaton) (ev : Int) : Automaton :=
  if a.n = 0 then
    -- C decrements `n` to `-1` and runs no loop; only the initial pointer
    -- is adjusted by the trailing `if`.
    { a with i := if ev = a.i then -1 else a.i - (if a.i ≥ ev then 1 else 0) }
  else if a.n = 1 then
    -- `if (!a->n) { free(a->e); a->e = NULL; return; }` — early return,
    -- the initial pointer is left untouched.
    { a with e := [] }
  else
    { e := (List.range (a.n - 1)).map (deleteRow a ev),
      na := a.na,
      i := if ev = a.i then -1 else a.i - (if a.i ≥ ev then 1 else 0) }

/-! ### Claim C8: characterization of `DeleteVertex` -/

/-- The index a surviving state `s ≠ e` gets after deleting state `e`. -/
def newIdx (ev : Nat) (s : Nat) : Nat := if s < ev then s else s - 1

/-- What the claim says happens to a transition target under deletion of
state `e`: minus one if it exceeded `e`, unchanged below `e`, absent at
`e`. -/
def mapTarget (ev : Nat) (t : Int) : Int :=
  if t = (ev : Int) then -1 else if t > (ev : Int) then t - 1 else t

/-! ### Claim C9: deleting the initial state -/

/-- The 2-state, 1-letter automaton with no transitions whose initial state
is state 1. -/
def a9 : Automaton := ⟨[⟨[-1], 0⟩, ⟨[-1], 0⟩], 1, 1⟩

/-! ## `CompleteAutomaton` (automataC.c:338-369) -/

/-- `AddEtat` (automataC.c:587): append one fresh state, all transitions
absent, with the given finality. -/
def AddEtat (a : Automaton) (fb : Bool) : Automaton :=
  { a with e := a.e ++ [{ f := List.replicate a.na (-1), final := if fb then 1 else 0 }] }

/-- `CompleteAutomaton` (automataC.c:338): redirect every absent transition
to a fresh sink state `ne = a.n`, make the sink initial if there was no
initial state, and append the sink (self-looping on every letter,
non-final) exactly when something was missing.  Returns whether a state was
added.  (The C loops run over `j < na` on rows assumed of length `na`; the
embedding maps whole rows, which agrees on well-formed automata.  The final
`if (a->i == -1) a->i = ne;` of the C is dead — `a->i` was already set —
and is omitted.) -/
def CompleteAutomaton (a : Automaton) : Bool × Automaton :=
  let ne : Int := (a.n : Int)
  let add1 : Bool := a.e.any (fun et => et.f.any (fun t => t = -1))
  if add1 = true ∨ a.i = -1 then
    (true,
      { e := (a.e.map (fun et =>
            { et with f := et.f.map (fun t => if t = -1 then ne else t) }))
          ++ [{ f := List.replicate a.na ne, final := 0 }],
        na := a.na,
        i := if a.i = -1 then ne else a.i })
  else (false, a)

/-- Some transition of `a` (a state/letter pair in range) is absent. -/
def missingT (a : Automaton) : Prop :=
  ∃ s : Nat, s < a.n ∧ ∃ j : Nat, j < a.na ∧ a.trans (s : Int) (j : Int) = -1

/-! ## `Product` (automataC.c:525-585) -/

/-- `contract` (automataC.c:510): pack a pair of indices.  The C arguments
are `int` but nonnegative at every call site, so the embedding uses `Nat`. -/
def contract (i1 i2 n1 : Nat) : Nat := i1 + n1 * i2

/-- `geti1` (automataC.c:515). -/
def geti1 (c n1 : Nat) : Nat := c % n1

/-- `geti2` (automataC.c:520). -/
def geti2 (c n1 : Nat) : Nat := c / n1

/-- `Product_rec` (automataC.c:525): depth-first exploration of the pair
graph, marking visited pairs by setting the (scratch) finality of the
product state and writing the product transitions.  Only `r` is written;
`a1`, `a2`, `d` are read-only. -/
def Product_rec (a1 a2 : Automaton) (d : Dict) : Nat → Int → Int → Automaton → Automaton
  | 0, _, _, r => r
  | fuel + 1, i1, i2, r =>
    let c : Int := ((contract i1.toNat i2.toNat a1.n : Nat) : Int)
    let r := r.setFinal c 1
    (List.range a1.na).foldl (fun (r : Automaton) (i : Nat) =>
      let e1 := a1.trans i1 ((i : Nat) : Int)
      if e1 < 0 then r
      else
        (List.range a2.na).foldl (fun (r : Automaton) (j : Nat) =>
          let e2 := a2.trans i2 ((j : Nat) : Int)
          let al := d.get ((contract i j a1.na : Nat) : Int)
          if al ≠ -1 then
            if e2 < 0 then r.setTrans c al (-1)
            else
              let nxt : Int := ((contract e1.toNat e2.toNat a1.n : Nat) : Int)
              let r := r.setTrans c al nxt
              if r.finalv nxt = 0 then Product_rec a1 a2 d fuel e1 e2 r else r
          else r) r) r

/-- `Product` (automataC.c:560): synchronous product guided by the
letter-pair dictionary `d`; returns the empty-language automaton (no
initial state) when either factor has none. -/
def Product (a1 a2 : Automaton) (d : Dict) : Automaton :=
  let na : Nat := (d.e.foldl (fun na x => if x ≥ na then x + 1 else na) 0).toNat
  let r : Automaton :=
    { e := List.replicate (a1.n * a2.n) { f := List.replicate na (-1), final := 0 },
      na := na, i := -1 }
  if a1.i = -1 ∨ a2.i = -1 then r
  else
    let r := { r with i := ((contract a1.i.toNat a2.i.toNat a1.n : Nat) : Int) }
    let r := Product_rec a1 a2 d (a1.n * a2.n + 1) a1.i a2.i r
    { r with
      e := r.e.mapIdx (fun c et =>
        { et with final :=
            if a1.finalv ((geti1 c a1.n : Nat) : Int) ≠ 0 ∧
               a2.finalv ((geti2 c a1.n : Nat) : Int) ≠ 0 then 1 else 0 }) }

/-! ## `Minimise` (automataC.c:1851-2221): Hopcroft partition refinement -/

/-- The global working state of the Hopcroft implementation
(automataC.c:1853-1865).  `cls` is the C's `class` array (a Lean keyword);
the C's worklist array `L` with its count `nL` becomes the list `Lw` whose
head is the top of the stack; `ptv` is `pt_visited_class`. -/
structure MinSt where
  partition : List Nat
  partitioni : List Nat
  cls : List Nat
  class_indices : List (Nat × Nat)
  nclass : Nat
  Lw : List Nat
  ptv : List Nat
deriving Repr, DecidableEq

/-- `swap` (automataC.c:1903): exchange the positions of states `i` and `j`
in the permutation. -/
def MinSt.swap (st : MinSt) (i j : Nat) : MinSt :=
  if i = j then st
  else
    let k := st.partition.getD i 0
    let pj := st.partition.getD j 0
    { st with
      partition := (st.partition.set i pj).set j k,
      partitioni := (st.partitioni.set k j).set pj i }

/-- Processing of one parent `p` in the first phase of `split`
(automataC.c:1929-1957), carrying the state together with the list of
classes visited so far (the C's `visited_class` array with count `nrc`). -/
def splitParent (stv : MinSt × List Nat) (p : Nat) : MinSt × List Nat :=
  let st := stv.1
  let visited := stv.2
  let cp := st.cls.getD p 0
  let stv :=
    if st.ptv.getD cp 0 = 0 then
      ({ st with ptv := st.ptv.set cp (st.class_indices.getD cp (0, 0)).1 },
        visited ++ [cp])
    else (st, visited)
  let st := stv.1
  let ep := st.ptv.getD cp 0
  if ep > st.partition.getD p 0 then stv
  else
    let ep' := st.partitioni.getD ep 0
    let st := st.swap ep' p
    ({ st with ptv := st.ptv.set cp (st.ptv.getD cp 0 + 1) }, stv.2)

/-- `split` (automataC.c:1914): refine the partition against class `C` and
letter `a`, given the inverse-transition table `tri` (state → letter →
predecessor list). -/
def split (tri : List (List (List Nat))) (C a : Nat) (st : MinSt) : MinSt :=
  let lo := (st.class_indices.getD C (0, 0)).1
  let hi := (st.class_indices.getD C (0, 0)).2
  -- `etats`: copy of the members of C, in case the class moves underneath
  let etats := (List.range' lo (hi - lo)).map (fun idx => st.partitioni.getD idx 0)
  let stv := etats.foldl (fun stv e =>
      ((tri.getD e []).getD a []).foldl splitParent stv) (st, ([] : List Nat))
  -- second phase (automataC.c:1967-2011): carve the smaller half of every
  -- visited class off as a new class and push it on the worklist
  stv.2.foldl (fun st cp =>
    let lo := (st.class_indices.getD cp (0, 0)).1
    let hi := (st.class_indices.getD cp (0, 0)).2
    let j := st.ptv.getD cp 0
    let st :=
      if j < hi then
        let st :=
          if ((hi : Int) - (j : Int) > (j : Int) - (lo : Int)) then
            { st with class_indices :=
                (st.class_indices.set cp (j, hi)).set st.nclass (lo, j) }
          else
            { st with class_indices :=
                (st.class_indices.set cp (lo, j)).set st.nclass (j, hi) }
        let nlo := (st.class_indices.getD st.nclass (0, 0)).1
        let nhi := (st.class_indices.getD st.nclass (0, 0)).2
        let cls := (List.range' nlo (nhi - nlo)).foldl
          (fun c idx => c.set (st.partitioni.getD idx 0) st.nclass) st.cls
        { st with cls := cls, Lw := st.nclass :: st.Lw, nclass := st.nclass + 1 }
      else st
    { st with ptv := st.ptv.set cp 0 }) stv.1

/-- The worklist loop of `Minimise` (automataC.c:2140-2152).  The C loop
terminates because at most `n - 1` classes are ever pushed; the fuel passed
by `Minimise` dominates that bound. -/
def minLoop (tri : List (List (List Nat))) (na : Nat) : Nat → MinSt → MinSt
  | 0, st => st
  | fuel + 1, st =>
    match st.Lw with
    | [] => st
    | C :: rest =>
      let st := { st with Lw := rest }
      let st := (List.range na).foldl (fun st j => split tri C j st) st
      minLoop tri na fuel st

/-- Append `v` to the bucket `(x, j)` of the inverse-transition table. -/
def triAdd (tri : List (List (List Nat))) (x j v : Nat) : List (List (List Nat)) :=
  tri.set x ((tri.getD x []).set j (((tri.getD x []).getD j []) ++ [v]))

/-- The inverse-transition table of `Minimise` (automataC.c:2044-2071):
predecessors per (state, letter), with absent transitions routed to the
implicit sink state `a.n`, which also self-loops on every letter. -/
def buildTri (a : Automaton) : List (List (List Nat)) :=
  let tri0 := (List.range (a.n + 1)).map
    (fun _ => (List.range a.na).map (fun _ => ([] : List Nat)))
  let tri1 := (List.range a.n).foldl (fun tri i =>
    (List.range a.na).foldl (fun tri j =>
      let fv := a.trans ((i : Nat) : Int) ((j : Nat) : Int)
      if fv ≠ -1 then triAdd tri fv.toNat j i else triAdd tri a.n j i) tri) tri0
  (List.range a.na).foldl (fun tri j => triAdd tri a.n j a.n) tri1

/-- The quotient automaton built from the final partition
(automataC.c:2160-2198): one state per class, transitions and finality
taken from the representative at the low end of the class's range. -/
def minQuotient (a : Automaton) (st2 : MinSt) : Automaton :=
  { e := (List.range st2.nclass).map (fun (i : Nat) =>
      let idx := (st2.class_indices.getD i (0, 0)).1
      let ee := st2.partitioni.getD idx 0
      if ee ≥ a.n then
        { f := List.replicate a.na (-1), final := 0 }
      else
        { f := (List.range a.na).map (fun (j : Nat) =>
            let t := a.trans ((ee : Nat) : Int) ((j : Nat) : Int)
            if t ≠ -1 then ((st2.cls.getD t.toNat 0 : Nat) : Int) else -1),
          final := a.finalv ((ee : Nat) : Int) }),
    na := a.na,
    i := if a.i ≠ -1 then ((st2.cls.getD a.i.toNat 0 : Nat) : Int) else -1 }

/-- The tail of `Minimise` (automataC.c:2200-2207): build the quotient and
delete the sink's class when it stayed the singleton `{a.n}`. -/
def minFinish (a : Automaton) (st2 : MinSt) : Automaton :=
  let r := minQuotient a st2
  let ic := st2.cls.getD a.n 0
  if (st2.class_indices.getD ic (0, 0)).2 = (st2.class_indices.getD ic (0, 0)).1 + 1 then
    DeleteVertexOP r ((ic : Nat) : Int)
  else r

/-- `Minimise` (automataC.c:2016): Hopcroft refinement over the state set
enlarged by the implicit sink `a.n`, followed by the quotient construction
and the removal of the sink's class when it stayed a singleton. -/
def Minimise (a : Automaton) : Automaton :=
  let tri := buildTri a
  let st0 : MinSt :=
    { partition := List.range (a.n + 1),
      partitioni := List.range (a.n + 1),
      cls := List.replicate (a.n + 1) 0,
      class_indices := List.replicate (a.n + 1) (0, 0),
      nclass := 0, Lw := [],
      ptv := List.replicate (a.n + 1) 0 }
  -- automataC.c:2092-2120: separate final and non-final states
  let stf := (List.range a.n).foldl (fun (p : MinSt × Nat) (i : Nat) =>
      let st := p.1
      let fcnt := p.2
      if a.finalv ((i : Nat) : Int) ≠ 0 then
        let st := { st with cls := st.cls.set i 0 }
        let st := st.swap (st.partitioni.getD fcnt 0) i
        (st, fcnt + 1)
      else ({ st with cls := st.cls.set i 1 }, fcnt)) (st0, 0)
  let st1 := stf.1
  let fcnt := stf.2
  let st1 := { st1 with
    cls := st1.cls.set a.n 1,
    class_indices := (st1.class_indices.set 0 (0, fcnt)).set 1 (fcnt, a.n + 1),
    nclass := 2,
    Lw := [if fcnt ≤ (a.n + 1) / 2 then 0 else 1] }
  let st2 := minLoop tri a.na (a.n + 2) st1
  minFinish a st2

/-! ## `equalsLangages` (automataC.c:390-470) -/

/-- The pure second loop of `equalsLangages_rec` (automataC.c:417-432):
every `a2`-edge out of `e2` must correspond (via `d2 = a2toa1`) to an
`a1`-edge out of `e1`.  It performs no mutation and no recursion. -/
def check2 (d2 : Dict) (a1 a2 : Automaton) (e1 e2 : Int) : Bool :=
  (List.range a2.na).all (fun (i : Nat) =>
    if a2.trans e2 ((i : Nat) : Int) ≠ -1 then
      decide (d2.get ((i : Nat) : Int) ≠ -1) &&
        decide (a1.trans e1 (d2.get ((i : Nat) : Int)) ≠ -1)
    else true)

mutual

/-- `equalsLangages_rec` (automataC.c:390): synchronized co-walk from the
pair `(e1, e2)`.  Visited states are marked with bit 2 of the finality
field; note the C discards the boolean result of its recursive call
(automataC.c:409), which the embedding reproduces by keeping only the
automata components of the nested call. -/
def eqLrec (d1 d2 : Dict) (fuel : Nat) (a1 a2 : Automaton) (e1 e2 : Int) :
    Bool × Automaton × Automaton :=
  match fuel with
  | 0 => (true, a1, a2)
  | fuel' + 1 =>
    if a1.finalv e1 &&& 2 ≠ 0 ∧ a2.finalv e2 &&& 2 ≠ 0 then (true, a1, a2)
    else
      let a1' := a1.setFinal e1 (a1.finalv e1 ||| 2)
      let a2' := a2.setFinal e2 (a2.finalv e2 ||| 2)
      match eqLloop d1 d2 fuel' e1 e2 (List.range a1'.na) a1' a2' with
      | (some b, a1'', a2'') => (b, a1'', a2'')
      | (none, a1'', a2'') => (check2 d2 a1'' a2'' e1 e2, a1'', a2'')
termination_by (fuel, 0)
decreasing_by
  exact Prod.Lex.left _ _ (Nat.lt_succ_self _)

/-- The first loop of `equalsLangages_rec` (automataC.c:398-415) over the
remaining letters `ls`: `some b` is an early `return b`, `none` means the
loop ran to completion. -/
def eqLloop (d1 d2 : Dict) (fuel : Nat) (e1 e2 : Int) (ls : List Nat)
    (a1 a2 : Automaton) : Option Bool × Automaton × Automaton :=
  match ls with
  | [] => (none, a1, a2)
  | i :: rest =>
    if a1.trans e1 ((i : Nat) : Int) ≠ -1 then
      if d1.get ((i : Nat) : Int) ≠ -1 then
        if a2.trans e2 (d1.get ((i : Nat) : Int)) = -1 then (some false, a1, a2)
        else
          let p := eqLrec d1 d2 fuel a1 a2 (a1.trans e1 ((i : Nat) : Int))
            (a2.trans e2 (d1.get ((i : Nat) : Int)))
          eqLloop d1 d2 fuel e1 e2 rest p.2.1 p.2.2
      else (some false, a1, a2)
    else eqLloop d1 d2 fuel e1 e2 rest a1 a2
termination_by (fuel, ls.length + 1)
decreasing_by
  all_goals
    first
    | exact Prod.Lex.right _ (Nat.succ_pos _)
    | exact Prod.Lex.right _ (by simp only [List.length_cons]; omega)

end

/-- The dictionary-inversion loop of `equalsLangages` (automataC.c:453-457).
A `-1` entry of `a1toa2` makes the C write at index `-1` (undefined
behaviour); the model drops that write, as well as writes beyond `na2`. -/
def invertLoop (d1 : Dict) (na2 : Nat) : Dict :=
  ⟨(List.range d1.n).foldl (fun (l : List Int) (i : Nat) =>
      let v := d1.get ((i : Nat) : Int)
      if v < 0 then l else l.set v.toNat ((i : Nat) : Int))
    (List.replicate na2 (-1))⟩

/-- `equalsLangages` (automataC.c:439): optionally replace both automata by
their minimisations (the C frees the originals and overwrites the argument
pointers), invert the dictionary, co-walk from the two initial states, and
clear the visit marks (`final &= 1`) before returning.  The embedding
returns the final contents of the two argument automata alongside the
boolean. -/
def equalsLangages (a1 a2 : Automaton) (a1toa2 : Dict) (minimized : Bool) :
    Bool × Automaton × Automaton :=
  let a1 := if minimized then a1 else Minimise a1
  let a2 := if minimized then a2 else Minimise a2
  let a2toa1 := invertLoop a1toa2 a2.na
  let p := eqLrec a1toa2 a2toa1 (a1.n + a2.n + 2) a1 a2 a1.i a2.i
  (p.1,
    { p.2.1 with e := p.2.1.e.map (fun et => { et with final := et.final &&& 1 }) },
    { p.2.2 with e := p.2.2.e.map (fun et => { et with final := et.final &&& 1 }) })

/-! ### Skeleton and mark relations for the co-walk -/

/-- Everything except finality fields: alphabet size, initial state, state
count and every transition row. -/
def sameSkel (a b : Automaton) : Prop :=
  b.na = a.na ∧ b.i = a.i ∧ b.e.length = a.e.length ∧
  ∀ s : Nat, (b.e.getD s default).f = (a.e.getD s default).f

/-- The finality fields after a traversal: untouched or with bit 2 OR-ed
in. -/
def marksOr (a b : Automaton) : Prop :=
  ∀ s : Nat, (b.e.getD s default).final = (a.e.getD s default).final ∨
    (b.e.getD s default).final = (a.e.getD s default).final ||| 2

/-- Preservation statement for `eqLrec` at one fuel level: the skeletons of
both automata are untouched, finality fields only ever gain bit 2. -/
def recPres (d1 d2 : Dict) (fuel : Nat) : Prop :=
  ∀ a1 a2 e1 e2,
    sameSkel a1 (eqLrec d1 d2 fuel a1 a2 e1 e2).2.1 ∧
    sameSkel a2 (eqLrec d1 d2 fuel a1 a2 e1 e2).2.2 ∧
    marksOr a1 (eqLrec d1 d2 fuel a1 a2 e1 e2).2.1 ∧
    marksOr a2 (eqLrec d1 d2 fuel a1 a2 e1 e2).2.2

/-- Preservation statement for `eqLloop` at one fuel level. -/
def loopPres (d1 d2 : Dict) (fuel : Nat) : Prop :=
  ∀ e1 e2 ls a1 a2,
    sameSkel a1 (eqLloop d1 d2 fuel e1 e2 ls a1 a2).2.1 ∧
    sameSkel a2 (eqLloop d1 d2 fuel e1 e2 ls a1 a2).2.2 ∧
    marksOr a1 (eqLloop d1 d2 fuel e1 e2 ls a1 a2).2.1 ∧
    marksOr a2 (eqLloop d1 d2 fuel e1 e2 ls a1 a2).2.2

/-! ### The boolean result of the co-walk depends only on the skeleton -/

/-- The pure value of the first loop of `equalsLangages_rec` over letters
`ls`: `some b` for an early return, `none` when the loop completes. -/
def loopCheck (d1 : Dict) (a1 a2 : Automaton) (e1 e2 : Int) : List Nat → Option Bool
  | [] => none
  | i :: rest =>
    if a1.trans e1 ((i : Nat) : Int) ≠ -1 then
      if d1.get ((i : Nat) : Int) ≠ -1 then
        if a2.trans e2 (d1.get ((i : Nat) : Int)) = -1 then some false
        else loopCheck d1 a1 a2 e1 e2 rest
      else some false
    else loopCheck d1 a1 a2 e1 e2 rest

/-! ### Claim C3: `equalsLangages (minimized := true)` ignores finality -/

/-- Flip the boolean finality (bit 0) of state `k`. -/
def flipFinal (a : Automaton) (k : Int) : Automaton :=
  a.setFinal k (a.finalv k ^^^ 1)

/-! ## Integer-indexed array helpers (C arrays indexed by `int` state ids;
negative indices are undefined behaviour in C and become guarded no-ops /
defaults here) -/

def ngetI (l : List Nat) (s : Int) : Nat := if s < 0 then 0 else l.getD s.toNat 0

def nsetI (l : List Nat) (s : Int) (v : Nat) : List Nat :=
  if s < 0 then l else l.set s.toNat v

def igetI (l : List Int) (s : Int) : Int :=
  if s < 0 then -1 else l.getD s.toNat (-1)

def isetI (l : List Int) (s : Int) (v : Int) : List Int :=
  if s < 0 then l else l.set s.toNat v

/-- Clear every scratch bit of the finality fields (`final &= 1` loops). -/
def restoreFinals (a : Automaton) : Automaton :=
  { a with e := a.e.map (fun et => { et with final := et.final &&& 1 }) }

/-- The renumbering array `l` of the pruning operations: kept states get
consecutive indices in increasing order, discarded states get `-1`. -/
def lArray (n : Nat) (keep : Nat → Bool) : List Int :=
  ((List.range n).foldl (fun (p : List Int × Nat) (i : Nat) =>
    if keep i then (p.1 ++ [(p.2 : Int)], p.2 + 1)
    else (p.1 ++ [-1], p.2)) (([] : List Int), 0)).1

/-- Shared result construction of `emonde_inf` / `emonde` / `emondeI`
(e.g. automataC.c:1245-1263): one state per kept index, in increasing
order (which is exactly how the C fills the slots `l[i]`), transitions
into discarded states replaced by `-1`, finality given by `finof`, initial
state mapped through `l`. -/
def pruneBuild (a : Automaton) (keep : Nat → Bool) (finof : Nat → Nat) : Automaton :=
  let l := lArray a.n keep
  { e := ((List.range a.n).filter keep).map (fun (i : Nat) =>
      { f := (List.range a.na).map (fun (j : Nat) =>
          let fv := a.trans ((i : Nat) : Int) ((j : Nat) : Int)
          if fv = -1 then -1 else igetI l fv),
        final := finof i }),
    na := a.na,
    i := if a.i ≠ -1 then igetI l a.i else -1 }

/-! ## `emptyLangage` (automataC.c:474-508) -/

mutual

/-- `emptyLangage_rec` (automataC.c:474): `false` means a final state is
reachable (language non-empty); visited states are marked with bit 2. -/
def emptyLangage_rec (a : Automaton) (fuel : Nat) (e : Int) : Bool × Automaton :=
  match fuel with
  | 0 => (true, a)
  | fuel' + 1 =>
    if a.finalv e ≠ 0 then (false, a)
    else
      let a' := a.setFinal e (a.finalv e ||| 2)
      emptyLloop a' fuel' e (List.range a'.na)
termination_by (fuel, 0)
decreasing_by
  exact Prod.Lex.left _ _ (Nat.lt_succ_self _)

/-- The letter loop of `emptyLangage_rec` (automataC.c:481-491); an early
`return false` propagates, other children are explored in turn. -/
def emptyLloop (a : Automaton) (fuel : Nat) (e : Int) (ls : List Nat) :
    Bool × Automaton :=
  match ls with
  | [] => (true, a)
  | i :: rest =>
    if a.trans e ((i : Nat) : Int) ≠ -1 then
      if a.finalv (a.trans e ((i : Nat) : Int)) &&& 2 ≠ 0 then
        emptyLloop a fuel e rest
      else
        let p := emptyLangage_rec a fuel (a.trans e ((i : Nat) : Int))
        if p.1 = false then (false, p.2)
        else emptyLloop p.2 fuel e rest
    else emptyLloop a fuel e rest
termination_by (fuel, ls.length + 1)
decreasing_by
  all_goals
    first
    | exact Prod.Lex.right _ (Nat.succ_pos _)
    | exact Prod.Lex.right _ (by simp only [List.length_cons]; omega)

end

/-- `emptyLangage` (automataC.c:496): vacuously empty without an initial
state; otherwise search and then clear the visit marks.  Returns the
boolean together with the automaton as left behind by the call. -/
def emptyLangage (a : Automaton) : Bool × Automaton :=
  if a.i = -1 then (true, a)
  else
    let p := emptyLangage_rec a (a.n + 1) a.i
    (p.1, restoreFinals p.2)

/-! ## `StronglyConnectedComponents` (automataC.c:1338-1401) -/

/-- The shared mutable state of Tarjan's algorithm: the automaton (whose
finality bits hold the visited marks), the stack `pile` with its counter
`cpt` (the C global `compteur`), the low-link array `m`, the component
array `res` and the component counter `cpt2` (`compteur2`). -/
structure SCCSt where
  a : Automaton
  pile : List Int
  m : List Nat
  res : List Int
  cpt : Nat
  cpt2 : Nat

/-- The pop loop of `StronglyConnectedComponents_rec`
(automataC.c:1365-1372): unwind the stack down to `etat`, assigning
component `cpt2`.  Structural recursion on the stack counter (the C
counter cannot underflow because `etat` is on the stack). -/
def sccPop (etat : Int) (cpt2 : Nat) : Nat → List Int → List Int → Nat × List Int
  | 0, _, res => (0, res)
  | cpt + 1, pile, res =>
    let p := igetI pile (cpt : Int)
    let res := isetI res p (cpt2 : Int)
    if p ≠ etat then sccPop etat cpt2 cpt pile res else (cpt, res)

mutual

/-- `StronglyConnectedComponents_rec` (automataC.c:1339): push, mark
(bit 2), explore, and pop a complete component when the low link comes
back to the entry index. -/
def sccRec (fuel : Nat) (st : SCCSt) (etat : Int) : SCCSt :=
  match fuel with
  | 0 => st
  | fuel' + 1 =>
    let c := st.cpt
    let st : SCCSt :=
      { st with
        pile := st.pile.set st.cpt etat,
        m := nsetI st.m etat st.cpt,
        a := st.a.setFinal etat (st.a.finalv etat ||| 2),
        cpt := st.cpt + 1 }
    let st := sccLoop fuel' st etat (List.range st.a.na)
    if ngetI st.m etat = c then
      let pr := sccPop etat st.cpt2 st.cpt st.pile st.res
      { st with cpt := pr.1, res := pr.2, cpt2 := st.cpt2 + 1 }
    else st
termination_by (fuel, 0)
decreasing_by
  exact Prod.Lex.left _ _ (Nat.lt_succ_self _)

/-- The successor loop of `StronglyConnectedComponents_rec`
(automataC.c:1348-1362). -/
def sccLoop (fuel : Nat) (st : SCCSt) (etat : Int) (ls : List Nat) : SCCSt :=
  match ls with
  | [] => st
  | j :: rest =>
    let f := st.a.trans etat ((j : Nat) : Int)
    if f = -1 then sccLoop fuel st etat rest
    else if st.a.finalv f &&& 2 = 0 then
      let st := sccRec fuel st f
      let st := { st with m := nsetI st.m etat (min (ngetI st.m etat) (ngetI st.m f)) }
      sccLoop fuel st etat rest
    else if igetI st.res f = -1 then
      let st := { st with m := nsetI st.m etat (min (ngetI st.m etat) (ngetI st.m f)) }
      sccLoop fuel st etat rest
    else sccLoop fuel st etat rest
termination_by (fuel, ls.length + 1)
decreasing_by
  all_goals
    first
    | exact Prod.Lex.right _ (Nat.succ_pos _)
    | exact Prod.Lex.right _ (by simp only [List.length_cons]; omega)

end

/-- `StronglyConnectedComponents` (automataC.c:1377): run the recursion
from every state not yet assigned a component, restore the finality bits,
and return the component count, the component array, and the automaton as
left behind.  (`m` and `pile` are `malloc`ed uninitialized in the C and
every read is dominated by a write; they start as zero lists here.) -/
def StronglyConnectedComponents (a : Automaton) : Nat × List Int × Automaton :=
  let st0 : SCCSt :=
    { a := a, pile := List.replicate a.n 0, m := List.replicate a.n 0,
      res := List.replicate a.n (-1), cpt := 0, cpt2 := 0 }
  let st := (List.range a.n).foldl (fun st (i : Nat) =>
    if igetI st.res ((i : Nat) : Int) = -1 then sccRec (st.a.n + 1) st ((i : Nat) : Int)
    else st) st0
  (st.cpt2, st.res, restoreFinals st.a)

/-! ## `emonde` (automataC.c:1426-1621) -/

/-- Bucket lookup of the inverse dictionary built over component ids. -/
def idvAt (idv : List (List Nat)) (c : Int) : List Nat :=
  if c < 0 then [] else idv.getD c.toNat []

/-- `dictAdd` on one bucket of the component dictionary
(automataC.c:1515). -/
def idvAdd (idv : List (List Nat)) (c : Int) (i : Nat) : List (List Nat) :=
  if c < 0 then idv else idv.set c.toNat (idv.getD c.toNat [] ++ [i])

mutual

/-- `emonde_rec` (automataC.c:1426): depth-first pass marking accessible
states with bit 2 and propagating co-accessibility (bit 4) to the whole
strongly connected component (`idv` bucket of `l[etat]`) the moment a
co-accessible child is seen. -/
def emondeRec (l : List Int) (idv : List (List Nat)) (fuel : Nat)
    (a : Automaton) (etat : Int) : Automaton :=
  match fuel with
  | 0 => a
  | fuel' + 1 =>
    let a := a.setFinal etat (a.finalv etat ||| 2)
    emondeLoop l idv fuel' a etat (List.range a.na)
termination_by (fuel, 0)
decreasing_by
  exact Prod.Lex.left _ _ (Nat.lt_succ_self _)

/-- The successor loop of `emonde_rec` (automataC.c:1431-1449). -/
def emondeLoop (l : List Int) (idv : List (List Nat)) (fuel : Nat)
    (a : Automaton) (etat : Int) (ls : List Nat) : Automaton :=
  match ls with
  | [] => a
  | i :: rest =>
    let f := a.trans etat ((i : Nat) : Int)
    if f = -1 then emondeLoop l idv fuel a etat rest
    else
      let a := if a.finalv f &&& 2 = 0 then emondeRec l idv fuel a f else a
      let a :=
        if a.finalv f &&& 4 ≠ 0 ∧ a.finalv etat &&& 4 = 0 then
          (idvAt idv (igetI l etat)).foldl
            (fun (a : Automaton) (j : Nat) =>
              a.setFinal ((j : Nat) : Int) (a.finalv ((j : Nat) : Int) ||| 4)) a
        else a
      emondeLoop l idv fuel a etat rest
termination_by (fuel, ls.length + 1)
decreasing_by
  all_goals
    first
    | exact Prod.Lex.right _ (Nat.succ_pos _)
    | exact Prod.Lex.right _ (by simp only [List.length_cons]; omega)

end

/-- The normalization/dictionary pass of `emonde` (automataC.c:1511-1516):
reset every non-zero finality to exactly 1 and add each state to the
bucket of its component. -/
def emondeNormFold (n : Nat) (l0 : List Int) (p0 : Automaton × List (List Nat)) :
    Automaton × List (List Nat) :=
  (List.range n).foldl (fun (p : Automaton × List (List Nat)) (i : Nat) =>
    ((if p.1.finalv ((i : Nat) : Int) ≠ 0 then p.1.setFinal ((i : Nat) : Int) 1
      else p.1),
      idvAdd p.2 (igetI l0 ((i : Nat) : Int)) i)) p0

/-- The co-accessibility seeding of `emonde` (automataC.c:1520-1531):
every component containing a final state gets bit 4 on all its members. -/
def emondeProp (n : Nat) (l0 : List Int) (idv : List (List Nat))
    (a : Automaton) : Automaton :=
  (List.range n).foldl (fun (a : Automaton) (i : Nat) =>
    if a.finalv ((i : Nat) : Int) &&& 1 ≠ 0 then
      (idvAt idv (igetI l0 ((i : Nat) : Int))).foldl
        (fun (a : Automaton) (j : Nat) =>
          a.setFinal ((j : Nat) : Int) (a.finalv ((j : Nat) : Int) ||| 4)) a
    else a) a

/-- The fully marked argument of `emonde` after components, normalization,
seeding and the accessibility walk. -/
def emondeMark (a : Automaton) : Automaton :=
  let p0 := StronglyConnectedComponents a
  let p1 := emondeNormFold a.n p0.2.1 (p0.2.2, List.replicate p0.1 ([] : List Nat))
  let a3 := emondeProp a.n p0.2.1 p1.2 p1.1
  if a.i ≠ -1 then emondeRec p0.2.1 p1.2 (a.n + 1) a3 a.i else a3

/-- The component dictionary of `emonde` as used by its marking pass. -/
def emondeIdv (a : Automaton) : List (List Nat) :=
  (emondeNormFold a.n (StronglyConnectedComponents a).2.1
    ((StronglyConnectedComponents a).2.2,
      List.replicate (StronglyConnectedComponents a).1 ([] : List Nat))).2

/-- `emonde` (automataC.c:1485): Tarjan components, final-state
normalization, co-accessibility propagation per component, accessibility
walk from the initial state, and the pruned rebuild keeping the states
with both bit 2 (accessible) and bit 4 (co-accessible).  Returns the new
automaton and the argument as left behind (marks cleared by `final &= 1`,
automataC.c:1605). -/
def emonde (a : Automaton) : Automaton × Automaton :=
  let a4 := emondeMark a
  let r := pruneBuild a4
    (fun i => decide (a4.finalv ((i : Nat) : Int) &&& 2 ≠ 0) &&
      decide (a4.finalv ((i : Nat) : Int) &&& 4 ≠ 0))
    (fun i => a4.finalv ((i : Nat) : Int) &&& 1)
  (r, restoreFinals a4)

/-! ## `emondeI` (automataC.c:1624-1718) -/

/-- `emondeI_rec` (automataC.c:1624): plain accessibility marking with
bit 2; the letter loop (automataC.c:1628-1637) is the fold over
`List.range a.na`.  Structural recursion on the fuel, which the wrapper
takes above the real recursion depth (each nested call marks a previously
unmarked state). -/
def emondeIRec : Nat → Automaton → Int → Automaton
  | 0, a, _ => a
  | fuel + 1, a, etat =>
    let a := a.setFinal etat (a.finalv etat ||| 2)
    (List.range a.na).foldl (fun (a : Automaton) (i : Nat) =>
      let f := a.trans etat ((i : Nat) : Int)
      if f = -1 then a
      else if a.finalv f &&& 2 = 0 then emondeIRec fuel a f
      else a) a

/-- The argument automaton after `emondeI`'s marking pass. -/
def emondeI_marked (a : Automaton) : Automaton :=
  if a.i ≠ -1 then emondeIRec (a.n + 1) a a.i else a

/-- The renumbering array `l` of `emondeI` (automataC.c:1655-1665). -/
def emondeI_l (a : Automaton) : List Int :=
  lArray a.n (fun i => decide ((emondeI_marked a).finalv ((i : Nat) : Int) &&& 2 ≠ 0))

/-- `emondeI` (automataC.c:1641): keep exactly the states marked
accessible.  NOTE: the C's final restore loop (automataC.c:1690-1706)
executes `r.e[l[i]].final = a.e[i].final` for EVERY `i` with no
`l[i] != -1` guard — an out-of-bounds write (`r.e[-1]`) whenever state `i`
was discarded; the model keeps only the in-bounds writes (claim C10 is
about precisely this spot). -/
def emondeI (a : Automaton) : Automaton × Automaton :=
  let am := emondeI_marked a
  let r := pruneBuild am
    (fun i => decide (am.finalv ((i : Nat) : Int) &&& 2 ≠ 0))
    (fun i => am.finalv ((i : Nat) : Int) &&& 1)
  (r, restoreFinals am)

/-! ## `emonde_inf` (automataC.c:1141-1295) -/

/-- `emonde_inf_rec` (automataC.c:1141): mark 1 = in progress / kept,
mark 2 = finished and discarded; returns whether a cycle is on or
reachable from `etat`.  The letter loop (automataC.c:1146-1158) is the
fold accumulating the `cycle` flag: per letter, an edge to a state marked
1 witnesses a cycle, an edge to an unmarked state recurses.  (The C's
global `compteur` only feeds a verbose print and is omitted.)  Structural
recursion on the fuel, which the wrapper takes above the real recursion
depth. -/
def einfRec : Nat → Automaton → Int → Bool × Automaton
  | 0, a, _ => (false, a)
  | fuel + 1, a, etat =>
    let a := a.setFinal etat 1
    let p := (List.range a.na).foldl (fun (p : Bool × Automaton) (i : Nat) =>
      let a := p.2
      let f := a.trans etat ((i : Nat) : Int)
      if f = -1 then p
      else
        let cyc1 : Bool := a.finalv f = 1
        let q := if a.finalv f = 0 then einfRec fuel a f else (false, a)
        (p.1 || cyc1 || q.1, q.2)) (false, a)
    if p.1 = false then (false, p.2.setFinal etat 2) else (true, p.2)

/-- The letter-loop body of `emonde_inf_rec` (automataC.c:1148-1165),
as a standalone function (definitionally the loop body of `einfRec`). -/
def einfStep (n : Nat) (etat : Int) (p : Bool × Automaton) (i : Nat) :
    Bool × Automaton :=
  let a := p.2
  let f := a.trans etat ((i : Nat) : Int)
  if f = -1 then p
  else
    let cyc1 : Bool := a.finalv f = 1
    let q := if a.finalv f = 0 then einfRec n a f else (false, a)
    (p.1 || cyc1 || q.1, q.2)

/-- The finality fields of `a` (saved into `finaux`,
automataC.c:1212-1216). -/
def finauxOf (a : Automaton) : List Nat := a.e.map (fun et => et.final)

/-- The automaton with all finality fields zeroed (states not seen). -/
def zeroFinals (a : Automaton) : Automaton :=
  { a with e := a.e.map (fun et => { et with final := 0 }) }

/-- The marked automaton after `emonde_inf`'s recursion from the initial
state. -/
def einfMarked (a : Automaton) : Automaton :=
  if a.i ≠ -1 then (einfRec (a.n + 1) (zeroFinals a) a.i).2 else zeroFinals a

/-- Overwrite the finality fields from a saved list
(automataC.c:1269-1274 restores `finaux` into the argument). -/
def withFinals (a : Automaton) (fs : List Nat) : Automaton :=
  { a with e := a.e.mapIdx (fun i et => { et with final := fs.getD i 0 }) }

/-- `emonde_inf` (automataC.c:1195): zero the finality fields (saving
them), run the cycle-detection walk from the initial state, keep exactly
the states with mark bit 1, and restore the saved finalities into both the
argument and (for kept states) the result. -/
def emonde_inf (a : Automaton) : Automaton × Automaton :=
  let fs := finauxOf a
  let am := einfMarked a
  let r := pruneBuild am
    (fun i => decide (am.finalv ((i : Nat) : Int) &&& 1 = 1))
    (fun i => fs.getD i 0)
  (r, withFinals am fs)

/-! ## `Determinise` (automataC.c:727-1108): subset construction with the
state-set hash registry -/

/-- The hash table size (automataC.c:728). -/
def nhash : Nat := 10000019

/-- `hash` (automataC.c:751) over a state set: `h = 1`, then
`h = (2h + e) % nhash` per element.  Entries are state indices (`≥ 0`) at
every call site, so C truncated `%` and `Int.emod` agree. -/
def hashE (e : List Int) : Nat :=
  ((e.foldl (fun (h : Int) x => (2 * h + x) % ((nhash : Nat) : Int)) 1)).toNat

/-- The hash table (automataC.c:727 `lhash`), bucket per hash value. -/
def Lhash : Type := Nat → List Int

/-- `dictAdd` on one bucket (automataC.c:796 / 1020). -/
def addBucket (lh : Lhash) (h : Nat) (v : Int) : Lhash :=
  fun h' => if h' = h then lh h ++ [v] else lh h'

/-- The bucket scan of `add` (automataC.c:773-791): `some v` means
"already present, `*nf = v`" (also for the `-1` sentinel of `noempty`),
`none` means the scan fell through. -/
def hashScan (l : List (List Int)) (bucket : List Int) (e : List Int) :
    Option Int :=
  match bucket with
  | [] => none
  | v :: rest =>
    if v < 0 then some v
    else if l.getD v.toNat [] = e then some v
    else hashScan l rest e

/-- `add` (automataC.c:765): insert-if-absent into the hash registry;
returns (inserted?, `*nf`, table). -/
def addH (l : List (List Int)) (lh : Lhash) (e : List Int) :
    Bool × Int × Lhash :=
  let h := hashE e
  match hashScan l (lh h) e with
  | some v => (false, v, lh)
  | none => (true, (l.length : Int), addBucket lh h ((l.length : Int)))

/-- `putEtat` (automataC.c:874): append a state to the set if absent. -/
def putEtat (f : List Int) (ef : Int) : List Int :=
  if ef ∈ f then f else f ++ [ef]

/-- The working state of the determinizer: the result automaton under
construction, the list of discovered state sets (`ListEtats l`), and the
hash registry. -/
structure DetSt where
  r : Automaton
  l : List (List Int)
  lh : Lhash

/-- The inner accumulation of the successor state set for one destination
letter (automataC.c:907-924): for every source state of the current set
and every source letter mapped to the destination letter, add the target
(if present) and record whether some target is final. -/
def detSucc (a : Automaton) (idd : List Nat) (c : List Int) : List Int × Bool :=
  c.foldl (fun (p : List Int × Bool) (s : Int) =>
    idd.foldl (fun (p : List Int × Bool) (k : Nat) =>
      let ef := a.trans s ((k : Nat) : Int)
      if ef ≠ -1 then
        (putEtat p.1 ef, p.2 || decide (a.finalv ef ≠ 0))
      else p) p) (([] : List Int), false)

mutual

/-- `Determinise_rec` (automataC.c:887): expand the most recently added
state set (`current = l.n - 1`) across every destination letter,
registering newly discovered sets and recursing into them depth-first. -/
def detRec (a : Automaton) (idv : List (List Nat)) (onlyfinals nof : Bool)
    (fuel : Nat) (st : DetSt) : DetSt :=
  match fuel with
  | 0 => st
  | fuel' + 1 =>
    let current := st.l.length - 1
    let c := st.l.getD current []
    detLetters a idv onlyfinals nof fuel' current c st (List.range idv.length)
termination_by (fuel, 0)
decreasing_by
  exact Prod.Lex.left _ _ (Nat.lt_succ_self _)

/-- The destination-letter loop of `Determinise_rec`
(automataC.c:905-957). -/
def detLetters (a : Automaton) (idv : List (List Nat)) (onlyfinals nof : Bool)
    (fuel : Nat) (current : Nat) (c : List Int) (st : DetSt) (ls : List Nat) :
    DetSt :=
  match ls with
  | [] => st
  | i :: rest =>
    let fp := detSucc a (idv.getD i []) c
    let f := fp.1
    let fin := fp.2
    if onlyfinals ∧ fin = false then
      detLetters a idv onlyfinals nof fuel current c st rest
    else if nof ∧ fin = true then
      detLetters a idv onlyfinals nof fuel current c st rest
    else
      let ar := addH st.l st.lh f
      let st' :=
        if ar.1 then
          let st2 : DetSt :=
            { r := AddEtat st.r (if nof then true else fin),
              l := st.l ++ [f], lh := ar.2.2 }
          detRec a idv onlyfinals nof fuel st2
        else { st with lh := ar.2.2 }
      let st' :=
        if ar.2.1 ≠ -1 then
          { st' with r := st'.r.setTrans ((current : Nat) : Int) ((i : Nat) : Int) ar.2.1 }
        else st'
      detLetters a idv onlyfinals nof fuel current c st' rest
termination_by (fuel, ls.length + 1)
decreasing_by
  all_goals
    first
    | exact Prod.Lex.right _ (Nat.succ_pos _)
    | exact Prod.Lex.right _ (by simp only [List.length_cons]; omega)

end

/-- `invertDict` (automataC.c:815): destination letter → list of source
letters (values assumed `≥ 0` or `-1`; the count of destinations is
`max d.e[i] + 1`). -/
def invertDict (d : Dict) : List (List Nat) :=
  let nv := (d.e.foldl (fun (nv : Int) x => if x ≥ nv then x + 1 else nv) 0).toNat
  (List.range d.n).foldl (fun (r : List (List Nat)) (i : Nat) =>
    let v := d.get ((i : Nat) : Int)
    if v ≠ -1 then
      if v < 0 then r else r.set v.toNat (r.getD v.toNat [] ++ [i])
    else r)
    ((List.range nv).map (fun _ => ([] : List Nat)))

/-- `Determinise` (automataC.c:961): subset construction from
`{a.i}` over the inverted dictionary.  The C first widens the process
stack limit (`setrlimit`, automataC.c:965-983), a resource-only side
effect with no semantic content.  The hash registry is seeded with the
empty set mapped to the sentinel `-1` when `noempty` is set; the fuel
passed to the recursion dominates the number of distinct state sets
(at most `2 ^ a.n`, as the registry deduplicates). -/
def Determinise (a : Automaton) (d : Dict) (noempty onlyfinals nof : Bool) :
    Automaton :=
  let idv := invertDict d
  let lh0 : Lhash := fun _ => []
  let lh0 := if noempty then addBucket lh0 (hashE []) (-1) else lh0
  if a.i = -1 then
    if nof then
      { e := [{ f := (List.range idv.length).map (fun _ => (0 : Int)),
                final := 1 }],
        na := idv.length, i := 0 }
    else { e := [], na := idv.length, i := -1 }
  else
    let r0 : Automaton :=
      { e := [{ f := List.replicate idv.length (-1),
                final := if nof then 1 else a.finalv a.i }],
        na := idv.length, i := 0 }
    -- automataC.c:1074-1085: the initial singleton set is hashed (with
    -- `l` still empty, so it gets id 0), appended to `l`, and the second
    -- `add` call finds it already present.
    let ar := addH [] lh0 [a.i]
    let st0 : DetSt := { r := r0, l := [[a.i]], lh := ar.2.2 }
    let st := detRec a idv onlyfinals nof (2 ^ a.n + 2) st0
    st.r

/-- Finality bits 0 agree state by state (scratch bits above may differ). -/
def marksLow (a b : Automaton) : Prop :=
  ∀ s : Nat, (b.e.getD s default).final &&& 1 = (a.e.getD s default).final &&& 1

/-- Skeleton plus low finality bits: the frame relation of one traversal. -/
def okAM (a b : Automaton) : Prop := sameSkel a b ∧ marksLow a b

/-! #### Claim C4: the theorems -/

/-- The one-state automaton over one letter with no transition and no
final state: its minimisation has two states (the empty finals class
produces a spurious state), so `equalsLangages` with `minimized = false`
visibly overwrites its arguments. -/
def aOne : Automaton := ⟨[⟨[-1], 0⟩], 1, 0⟩

/-! ### Claim C5: `emonde_inf` and unreachable cycle states -/

/-- Counterexample automaton for C5: state 0 is initial with no
transitions; state 1 (final) carries a self-loop on letter 0, so an
infinite run starts at state 1 — but state 1 is unreachable from the
initial state. -/
def a5 : Automaton := ⟨[⟨[-1], 0⟩, ⟨[1], 1⟩], 1, 0⟩

/-! #### Machinery for the full characterization of `emonde_inf` -/

/-- `s` is a valid state index of `a`. -/
def inRangeI (a : Automaton) (s : Int) : Prop := 0 ≤ s ∧ s < (a.n : Int)

instance (a : Automaton) (s : Int) : Decidable (inRangeI a s) := instDecidableAnd

/-- The number of states with a zero finality field — the states the
`emonde_inf` scan has not visited yet (its recursion variant). -/
def zerosA (b : Automaton) : Nat := b.e.countP (fun et => et.final == 0)

/-- The rank of state `s` among the kept states: the number of kept
states of smaller index.  This is the value the renumbering array `l` of
the pruning operations assigns to a kept state. -/
def rankOf (keep : Nat → Bool) (s : Nat) : Nat :=
  ((List.range s).filter keep).length

/-- The depth-first-search invariant of the `emonde_inf` marking scan,
relative to the original automaton `a0` and the (ghost) stack `S` of
states whose exploration is in progress: mark `1` means on the stack or
known to reach a cycle, mark `2` means known not to reach a cycle, marks
stay `≤ 2`, and every marked state is on the stack or has all its valid
successors marked. -/
def einfInv (a0 b : Automaton) (S : List Int) : Prop :=
  sameSkel a0 b ∧
  (∀ s : Int, b.finalv s = 1 → s ∈ S ∨ reachesCycle a0 s) ∧
  (∀ s : Int, b.finalv s = 2 → ¬ reachesCycle a0 s) ∧
  (∀ s : Int, b.finalv s ≤ 2) ∧
  (∀ s : Int, b.finalv s ≠ 0 → s ∈ S ∨
    ∀ t : Int, stepR a0 s t → inRangeI a0 t → b.finalv t ≠ 0)

/-- The postcondition of `emonde_inf_rec` (automataC.c:1141) on automaton
`b`, stack `S` and current state `etat`: the invariant is re-established
with `etat` popped, no mark is erased, new marks sit on states reachable
from `etat`, the returned flag decides `reachesCycle etat`, and a valid
`etat` ends up marked. -/
def einfRecPost (a0 b : Automaton) (S : List Int) (etat : Int)
    (r : Bool × Automaton) : Prop :=
  einfInv a0 r.2 S ∧
  (∀ s : Int, r.2.finalv s = 0 → b.finalv s = 0) ∧
  (∀ s : Int, r.2.finalv s ≠ 0 → b.finalv s ≠ 0 ∨
    Relation.ReflTransGen (stepR a0) etat s) ∧
  (r.1 = true → reachesCycle a0 etat) ∧
  (r.1 = false → ¬ reachesCycle a0 etat) ∧
  (inRangeI a0 etat → r.2.finalv etat ≠ 0)

/-- The keep predicate of `emonde_inf` (automataC.c:1234): bit 1 of the
mark left by the scan. -/
def einfKeep (a : Automaton) : Nat → Bool :=
  fun s => decide ((einfMarked a).finalv ((s : Nat) : Int) &&& 1 = 1)

/-- Where a transition target goes under pruning: to the rank of the
target when the target is a kept valid state, otherwise removed. -/
def pruneTarget (n : Nat) (keep : Nat → Bool) (t : Int) : Int :=
  if 0 ≤ t ∧ t < (n : Int) ∧ keep t.toNat = true
  then ((rankOf keep t.toNat : Nat) : Int) else -1

/-! ## Theorems -/

/-! ### Helper lemmas for indexed reads -/

theorem getD_map_range {α : Type} (n : Nat) (f : Nat → α) (i : Nat) (d : α)
    (h : i < n) : ((List.range n).map f).getD i d = f i := by
  rw [List.getD_eq_getElem?_getD, List.getElem?_map, List.getElem?_range h]
  rfl

theorem getD_lt {α : Type} (l : List α) (i : Nat) (d : α) (h : i < l.length) :
    l.getD i d = l[i] := by
  rw [List.getD_eq_getElem?_getD, List.getElem?_eq_getElem h]
  rfl

theorem getD_ge {α : Type} (l : List α) (i : Nat) (d : α) (h : l.length ≤ i) :
    l.getD i d = d := by
  rw [List.getD_eq_getElem?_getD, List.getElem?_eq_none h]
  rfl

theorem trans_nat (a : Automaton) (s : Nat) (j : Nat) :
    a.trans (s : Int) (j : Int) = (a.state (s : Int)).f.getD j (-1) := by
  have : ¬ ((j : Int) < 0) := by omega
  simp [Automaton.trans, this]

theorem state_nat (a : Automaton) (s : Nat) :
    a.state (s : Int) = a.e.getD s default := by
  have h0 : ¬ ((s : Int) < 0) := by omega
  simp [Automaton.state, h0]

/-- C8: for `0 ≤ e < n`, `DeleteVertex(a, e)` has `n-1` states and every
surviving state `s ≠ e` (renumbered to `newIdx e s`) keeps its finality
while each of its transition targets is rewritten by `mapTarget e`:
decremented when above `e`, unchanged when below, absent when equal. -/
theorem c8_deleteVertex_characterization (a : Automaton) (ev : Nat)
    (hev : ev < a.n) :
    (DeleteVertex a (ev : Int)).n = a.n - 1 ∧
    ∀ s : Nat, s < a.n → s ≠ ev →
      (DeleteVertex a (ev : Int)).finalv ((newIdx ev s : Nat) : Int)
        = a.finalv (s : Int) ∧
      ∀ j : Nat, j < a.na →
        (DeleteVertex a (ev : Int)).trans ((newIdx ev s : Nat) : Int) (j : Int)
          = mapTarget ev (a.trans (s : Int) (j : Int)) := by
  constructor
  · simp [DeleteVertex, Automaton.n]
  · intro s hs hne
    have hidx : newIdx ev s < a.n - 1 := by
      unfold newIdx; split <;> omega
    have hrow : (DeleteVertex a (ev : Int)).state ((newIdx ev s : Nat) : Int)
        = deleteRow a (ev : Int) (newIdx ev s) := by
      rw [state_nat]
      show (((List.range (a.n - 1)).map (deleteRow a (ev : Int))).getD
        (newIdx ev s) default) = _
      exact getD_map_range _ _ _ _ hidx
    have hoi : ((newIdx ev s : Nat) : Int)
        + (if ((newIdx ev s : Nat) : Int) ≥ (ev : Int) then 1 else 0)
        = (s : Int) := by
      unfold newIdx
      by_cases h : s < ev
      · have h1 : ¬ ((s : Int) ≥ (ev : Int)) := by omega
        simp [h, h1]
      · have h2 : ((s - 1 : Nat) : Int) ≥ (ev : Int) := by omega
        have h3 : ((s - 1 : Nat) : Int) + 1 = (s : Int) := by omega
        simp [h, h2, h3]
    constructor
    · show ((DeleteVertex a (ev : Int)).state _).final = _
      rw [hrow]
      show a.finalv _ = _
      rw [hoi]
    · intro j hj
      show (if (j : Int) < 0 then -1 else
        ((DeleteVertex a (ev : Int)).state _).f.getD (j : Int).toNat (-1)) = _
      have hj0 : ¬ ((j : Int) < 0) := by omega
      rw [if_neg hj0, hrow]
      unfold deleteRow
      simp only [Int.toNat_natCast]
      rw [hoi, getD_map_range _ _ _ _ hj]
      unfold mapTarget
      by_cases h1 : a.trans (s : Int) (j : Int) = (ev : Int)
      · simp [h1]
      · have h2 : (a.trans (s : Int) (j : Int) ≠ (ev : Int)) := h1
        rw [if_pos h2, if_neg h1]
        by_cases h3 : a.trans (s : Int) (j : Int) > (ev : Int)
        · have h4 : a.trans (s : Int) (j : Int) ≥ (ev : Int) := by omega
          simp [h3, h4]
        · have h4 : ¬ (a.trans (s : Int) (j : Int) ≥ (ev : Int)) := by omega
          simp [h3, h4]

/-- Witness for C8 at a concrete input: the 2-state automaton with a single
letter and a `0 --0--> 1` edge, deleting state 0. -/
theorem c8_deleteVertex_characterization_witness :
    (1 : Nat) < (Automaton.mk [⟨[1], 0⟩, ⟨[(-1 : Int)], 1⟩] 1 0).n ∧
    ((DeleteVertex (Automaton.mk [⟨[1], 0⟩, ⟨[(-1 : Int)], 1⟩] 1 0) 1).n = 1) := by
  refine ⟨by decide, ?_⟩
  exact (c8_deleteVertex_characterization
    (Automaton.mk [⟨[1], 0⟩, ⟨[(-1 : Int)], 1⟩] 1 0) 1 (by decide)).1

/-- C9 fails on `DeleteVertex`: deleting the initial state 1 of `a9` leaves
the initial pointer at `0` (the code rewrites `a.i - (a.i >= e)` with no
special case), while the claim demands `-1`; `DeleteVertexOP` does take the
branch the claim describes. -/
theorem c9_deleteVertex_initial_not_cleared :
    (DeleteVertex a9 1).i = 0 ∧ (DeleteVertexOP a9 1).i = -1 ∧ a9.i = 1 := by
  decide

theorem any_absent_iff (a : Automaton) (hwf : WellFormed a) :
    (a.e.any (fun et => et.f.any (fun t => t = -1)) = true) ↔ missingT a := by
  rw [List.any_eq_true]
  constructor
  · rintro ⟨et, hmem, hany⟩
    rw [List.any_eq_true] at hany
    obtain ⟨t, htmem, ht⟩ := hany
    obtain ⟨s, hs, hgets⟩ := List.mem_iff_getElem.1 hmem
    obtain ⟨j, hj, hgetj⟩ := List.mem_iff_getElem.1 htmem
    refine ⟨s, hs, j, ?_, ?_⟩
    · rw [← hwf et hmem]; exact hj
    · rw [trans_nat, state_nat, getD_lt _ _ _ hs, hgets,
        getD_lt _ _ _ hj, hgetj]
      exact of_decide_eq_true ht
  · rintro ⟨s, hs, j, hj, htr⟩
    rw [trans_nat, state_nat, getD_lt _ _ _ hs] at htr
    have hlen : (a.e[s]).f.length = a.na := hwf _ (List.getElem_mem hs)
    have hjlen : j < (a.e[s]).f.length := by omega
    rw [getD_lt _ _ _ hjlen] at htr
    refine ⟨a.e[s], List.getElem_mem hs, ?_⟩
    rw [List.any_eq_true]
    exact ⟨(a.e[s]).f[j], List.getElem_mem hjlen, by simp [htr]⟩

/-- C6: on a well-formed automaton, `CompleteAutomaton` returns `true` iff
some transition or the initial state was missing; in that case exactly one
sink state is appended (non-final, self-looping on every letter), every
previously missing transition now
points to it, present transitions and finалities are unchanged, and the
sink becomes initial exactly when there was no initial state; otherwise the
automaton is returned unchanged. -/
theorem c6_completeAutomaton (a : Automaton) (hwf : WellFormed a) :
    ((CompleteAutomaton a).1 = true ↔ (missingT a ∨ a.i = -1)) ∧
    ((CompleteAutomaton a).1 = false → (CompleteAutomaton a).2 = a) ∧
    ((CompleteAutomaton a).1 = true →
      (CompleteAutomaton a).2.n = a.n + 1 ∧
      (CompleteAutomaton a).2.na = a.na ∧
      (CompleteAutomaton a).2.finalv ((a.n : Nat) : Int) = 0 ∧
      (∀ j : Nat, j < a.na →
        (CompleteAutomaton a).2.trans ((a.n : Nat) : Int) (j : Int) = (a.n : Int)) ∧
      (∀ s : Nat, s < a.n →
        (CompleteAutomaton a).2.finalv (s : Int) = a.finalv (s : Int) ∧
        ∀ j : Nat, j < a.na →
          (CompleteAutomaton a).2.trans (s : Int) (j : Int)
            = (if a.trans (s : Int) (j : Int) = -1 then (a.n : Int)
               else a.trans (s : Int) (j : Int))) ∧
      (CompleteAutomaton a).2.i = (if a.i = -1 then (a.n : Int) else a.i)) := by
  by_cases hc : (a.e.any (fun et => et.f.any (fun t => t = -1)) = true) ∨ a.i = -1
  · have h1 : (CompleteAutomaton a).1 = true := by
      unfold CompleteAutomaton; rw [if_pos hc]
    have h2 : (CompleteAutomaton a).2 =
      { e := (a.e.map (fun et =>
            { et with f := et.f.map (fun t => if t = -1 then (a.n : Int) else t) }))
          ++ [{ f := List.replicate a.na (a.n : Int), final := 0 }],
        na := a.na,
        i := if a.i = -1 then (a.n : Int) else a.i } := by
      unfold CompleteAutomaton; rw [if_pos hc]
    refine ⟨?_, ?_, ?_⟩
    · rw [h1]
      simp only [true_iff]
      rcases hc with hc | hc
      · exact Or.inl ((any_absent_iff a hwf).1 hc)
      · exact Or.inr hc
    · intro hf; rw [h1] at hf; exact absurd hf (by simp)
    · intro _
      rw [h2]
      set e1 := a.e.map (fun et =>
        { et with f := et.f.map (fun t => if t = -1 then (a.n : Int) else t) }) with he1
      set snk : Etat := { f := List.replicate a.na (a.n : Int), final := 0 } with hsnk
      have hlen : e1.length = a.n := by simp [he1, Automaton.n]
      have hgetsink : (e1 ++ [snk]).getD a.n default = snk := by
        have h1 : a.n < (e1 ++ [snk]).length := by simp [hlen]
        rw [getD_lt _ _ _ h1, List.getElem_append_right (by omega)]
        simp [hlen]
      refine ⟨?_, rfl, ?_, ?_, ?_, rfl⟩
      · simp [Automaton.n, hlen]
      · show (Automaton.state _ _).final = 0
        rw [state_nat]
        show ((e1 ++ [snk]).getD a.n default).final = 0
        rw [hgetsink]
      · intro j hj
        rw [trans_nat, state_nat]
        show ((e1 ++ [snk]).getD a.n default).f.getD j (-1) = _
        rw [hgetsink]
        show (List.replicate a.na ((a.n : Nat) : Int)).getD j (-1) = _
        rw [getD_lt _ _ _ (by simpa using hj)]
        simp
      · intro s hs
        have hs1 : s < (e1 ++ [snk]).length := by simp [hlen]; omega
        have hget : (e1 ++ [snk]).getD s default
            = { a.e[s] with
                f := (a.e[s]).f.map (fun t => if t = -1 then (a.n : Int) else t) } := by
          rw [getD_lt _ _ _ hs1, List.getElem_append_left (by omega)]
          simp [he1]
        have hsa : s < a.e.length := hs
        constructor
        · show (Automaton.state _ _).final = a.finalv _
          rw [state_nat, Automaton.finalv, state_nat, getD_lt _ _ _ hsa]
          show ((e1 ++ [snk]).getD s default).final = _
          rw [hget]
        · intro j hj
          rw [trans_nat, state_nat, trans_nat, state_nat, getD_lt _ _ _ hsa]
          show ((e1 ++ [snk]).getD s default).f.getD j (-1) = _
          rw [hget]
          have hlenf : (a.e[s]).f.length = a.na := hwf _ (List.getElem_mem hsa)
          have hjf : j < (a.e[s]).f.length := by omega
          have hjf2 : j < ((a.e[s]).f.map
              (fun t => if t = -1 then ((a.n : Nat) : Int) else t)).length := by
            simpa using hjf
          rw [getD_lt _ _ _ hjf2, getD_lt _ _ _ hjf, List.getElem_map]
  · have h1 : (CompleteAutomaton a).1 = false := by
      unfold CompleteAutomaton; rw [if_neg hc]
    have h2 : (CompleteAutomaton a).2 = a := by
      unfold CompleteAutomaton; rw [if_neg hc]
    refine ⟨?_, fun _ => h2, ?_⟩
    · rw [h1]
      simp only [Bool.false_eq_true, false_iff]
      intro hmiss
      apply hc
      rcases hmiss with hm | hm
      · exact Or.inl ((any_absent_iff a hwf).2 hm)
      · exact Or.inr hm
    · intro ht; rw [h1] at ht; exact absurd ht (by simp)

/-- Witness for C6: the 1-state automaton over one letter missing its only
transition; completion adds the sink and reports `true`. -/
theorem c6_completeAutomaton_witness :
    WellFormed (Automaton.mk [⟨[-1], 1⟩] 1 0) ∧
    ((CompleteAutomaton (Automaton.mk [⟨[-1], 1⟩] 1 0)).1 = true ↔
      (missingT (Automaton.mk [⟨[-1], 1⟩] 1 0) ∨ (Automaton.mk [⟨[-1], 1⟩] 1 0).i = -1)) := by
  exact ⟨by decide, (c6_completeAutomaton (Automaton.mk [⟨[-1], 1⟩] 1 0) (by decide)).1⟩

/-- C7: when either factor lacks an initial state, the product has no
initial state, accepts no word, and has no reachable state. -/
theorem c7_product_no_initial (a1 a2 : Automaton) (d : Dict)
    (h : a1.i = -1 ∨ a2.i = -1) :
    (Product a1 a2 d).i = -1 ∧
    (∀ w : List Nat, ¬ accepts (Product a1 a2 d) w) ∧
    (∀ s : Int, ¬ reachableFromInit (Product a1 a2 d) s) := by
  have hp : (Product a1 a2 d).i = -1 := by
    unfold Product
    rw [if_pos h]
  refine ⟨hp, ?_, ?_⟩
  · intro w hacc
    exact hacc.1 hp
  · intro s hr
    exact hr.1 hp

/-- Witness for C7 at a concrete pair: `a9` (initial state 1) against the
automaton with no initial state. -/
theorem c7_product_no_initial_witness :
    ((Automaton.mk [⟨[-1], 0⟩] 1 (-1)).i = -1 ∨ a9.i = -1) ∧
    (Product (Automaton.mk [⟨[-1], 0⟩] 1 (-1)) a9 ⟨[0]⟩).i = -1 := by
  refine ⟨Or.inl rfl, ?_⟩
  exact (c7_product_no_initial (Automaton.mk [⟨[-1], 0⟩] 1 (-1)) a9 ⟨[0]⟩
    (Or.inl rfl)).1

theorem deleteVertexOP_na (a : Automaton) (ev : Int) :
    (DeleteVertexOP a ev).na = a.na := by
  unfold DeleteVertexOP
  split
  · rfl
  · split <;> rfl

theorem minFinish_na (a : Automaton) (st2 : MinSt) :
    (minFinish a st2).na = a.na := by
  simp only [minFinish]
  split
  · rw [deleteVertexOP_na]; rfl
  · rfl

theorem minimise_na (a : Automaton) : (Minimise a).na = a.na :=
  minFinish_na a _

/-! ### Generic list/bit helper lemmas -/

theorem getD_set_eq {α : Type} (l : List α) (i : Nat) (v d : α)
    (h : i < l.length) : (l.set i v).getD i d = v := by
  rw [List.getD_eq_getElem?_getD, List.getElem?_set_self h]
  rfl

theorem getD_set_ne {α : Type} (l : List α) (i j : Nat) (v d : α)
    (h : i ≠ j) : (l.set i v).getD j d = l.getD j d := by
  rw [List.getD_eq_getElem?_getD, List.getElem?_set_ne h,
    ← List.getD_eq_getElem?_getD]

theorem testBit_two (k : Nat) : (2 : Nat).testBit k = decide (k = 1) := by
  match k with
  | 0 => decide
  | 1 => decide
  | k + 2 =>
    have h2 : (2 : Nat) / 2 / 2 = 0 := by norm_num
    rw [Nat.testBit_succ, Nat.testBit_succ, h2, Nat.zero_testBit]
    have h3 : ¬ (k + 2 = 1) := by omega
    simp [h3]

theorem testBit_one (k : Nat) : (1 : Nat).testBit k = decide (k = 0) := by
  match k with
  | 0 => decide
  | k + 1 =>
    have h2 : (1 : Nat) / 2 = 0 := by norm_num
    rw [Nat.testBit_succ, h2, Nat.zero_testBit]
    have h3 : ¬ (k + 1 = 0) := by omega
    simp [h3]

theorem or_two_and_two (x : Nat) : (x ||| 2) &&& 2 = 2 := by
  apply Nat.eq_of_testBit_eq
  intro k
  simp only [Nat.testBit_and, Nat.testBit_or, testBit_two]
  by_cases h : k = 1 <;> simp [h]

theorem or_two_and_one (x : Nat) : (x ||| 2) &&& 1 = x &&& 1 := by
  apply Nat.eq_of_testBit_eq
  intro k
  simp only [Nat.testBit_and, Nat.testBit_or, testBit_one, testBit_two]
  by_cases h : k = 1 <;> by_cases h0 : k = 0 <;> simp [h, h0]

theorem xor_one_and_two (x : Nat) : (x ^^^ 1) &&& 2 = x &&& 2 := by
  apply Nat.eq_of_testBit_eq
  intro k
  simp only [Nat.testBit_and, Nat.testBit_xor, testBit_one, testBit_two]
  by_cases h : k = 1 <;> by_cases h0 : k = 0 <;> simp [h, h0]

theorem and_one_of_le_one {x : Nat} (h : x ≤ 1) : x &&& 1 = x := by
  rw [Nat.and_one_is_mod]
  omega

theorem or_or_two (x : Nat) : (x ||| 2) ||| 2 = x ||| 2 := by
  rw [Nat.or_assoc, Nat.or_self]

theorem sameSkel_refl (a : Automaton) : sameSkel a a := ⟨rfl, rfl, rfl, fun _ => rfl⟩

theorem sameSkel_comp {a b c : Automaton} (h1 : sameSkel a b) (h2 : sameSkel b c) :
    sameSkel a c :=
  ⟨h2.1.trans h1.1, h2.2.1.trans h1.2.1, h2.2.2.1.trans h1.2.2.1,
    fun s => (h2.2.2.2 s).trans (h1.2.2.2 s)⟩

theorem sameSkel_setFinal (a : Automaton) (s : Int) (v : Nat) :
    sameSkel a (a.setFinal s v) := by
  unfold Automaton.setFinal
  split
  · exact sameSkel_refl a
  · refine ⟨rfl, rfl, List.length_set _ _ _, fun t => ?_⟩
    by_cases h : s.toNat = t
    · subst h
      by_cases hlt : s.toNat < a.e.length
      · rw [getD_set_eq _ _ _ _ hlt, getD_lt _ _ _ hlt]
      · rw [getD_ge _ _ _ (by rw [List.length_set]; omega),
          getD_ge _ _ _ (by omega)]
    · rw [getD_set_ne _ _ _ _ _ h]

theorem sameSkel_trans_eq {a b : Automaton} (h : sameSkel a b) (s j : Int) :
    b.trans s j = a.trans s j := by
  unfold Automaton.trans Automaton.state
  rcases h with ⟨-, -, -, hf⟩
  by_cases hj : j < 0
  · simp [hj]
  · by_cases hs : s < 0
    · simp [hs]
    · simp only [hj, hs, if_neg, if_false]
      rw [hf s.toNat]

theorem sameSkel_n {a b : Automaton} (h : sameSkel a b) : b.n = a.n := h.2.2.1

theorem sameSkel_na {a b : Automaton} (h : sameSkel a b) : b.na = a.na := h.1

theorem marksOr_refl (a : Automaton) : marksOr a a := fun _ => Or.inl rfl

theorem marksOr_comp {a b c : Automaton} (h1 : marksOr a b) (h2 : marksOr b c) :
    marksOr a c := by
  intro s
  rcases h2 s with h | h <;> rcases h1 s with h' | h' <;>
    rw [h, h'] <;> simp [or_or_two]

theorem marksOr_setFinal2 (a : Automaton) (s : Int) :
    marksOr a (a.setFinal s (a.finalv s ||| 2)) := by
  unfold Automaton.setFinal
  split
  · exact marksOr_refl a
  · intro t
    by_cases h : s.toNat = t
    · subst h
      by_cases hlt : s.toNat < a.e.length
      · rw [getD_set_eq _ _ _ _ hlt]
        right
        unfold Automaton.finalv Automaton.state
        simp only [if_neg (by omega : ¬ s < 0)]
      · rw [getD_ge _ _ _ (by rw [List.length_set]; omega),
          getD_ge _ _ _ (by omega : a.e.length ≤ s.toNat)]
        exact Or.inl rfl
    · rw [getD_set_ne _ _ _ _ _ h]
      exact Or.inl rfl

theorem loopPres_of_recPres (d1 d2 : Dict) (fuel : Nat)
    (hrec : recPres d1 d2 fuel) : loopPres d1 d2 fuel := by
  intro e1 e2 ls
  induction ls with
  | nil =>
    intro a1 a2
    rw [eqLloop]
    exact ⟨sameSkel_refl _, sameSkel_refl _, marksOr_refl _, marksOr_refl _⟩
  | cons i rest ih =>
    intro a1 a2
    rw [eqLloop]
    by_cases h1 : a1.trans e1 ((i : Nat) : Int) ≠ -1
    · rw [if_pos h1]
      by_cases h2 : d1.get ((i : Nat) : Int) ≠ -1
      · rw [if_pos h2]
        by_cases h3 : a2.trans e2 (d1.get ((i : Nat) : Int)) = -1
        · rw [if_pos h3]
          exact ⟨sameSkel_refl _, sameSkel_refl _, marksOr_refl _, marksOr_refl _⟩
        · rw [if_neg h3]
          obtain ⟨hs1, hs2, hm1, hm2⟩ := hrec a1 a2 (a1.trans e1 ((i : Nat) : Int))
            (a2.trans e2 (d1.get ((i : Nat) : Int)))
          obtain ⟨hs1', hs2', hm1', hm2'⟩ := ih _ _
          exact ⟨sameSkel_comp hs1 hs1', sameSkel_comp hs2 hs2',
            marksOr_comp hm1 hm1', marksOr_comp hm2 hm2'⟩
      · rw [if_neg h2]
        exact ⟨sameSkel_refl _, sameSkel_refl _, marksOr_refl _, marksOr_refl _⟩
    · rw [if_neg h1]
      exact ih _ _

theorem recPres_all (d1 d2 : Dict) : ∀ fuel, recPres d1 d2 fuel := by
  intro fuel
  induction fuel with
  | zero =>
    intro a1 a2 e1 e2
    rw [eqLrec]
    exact ⟨sameSkel_refl _, sameSkel_refl _, marksOr_refl _, marksOr_refl _⟩
  | succ n ih =>
    intro a1 a2 e1 e2
    rw [eqLrec]
    by_cases hent : a1.finalv e1 &&& 2 ≠ 0 ∧ a2.finalv e2 &&& 2 ≠ 0
    · rw [if_pos hent]
      exact ⟨sameSkel_refl _, sameSkel_refl _, marksOr_refl _, marksOr_refl _⟩
    · rw [if_neg hent]
      have hloop := loopPres_of_recPres d1 d2 n ih e1 e2
        (List.range (a1.setFinal e1 (a1.finalv e1 ||| 2)).na)
        (a1.setFinal e1 (a1.finalv e1 ||| 2)) (a2.setFinal e2 (a2.finalv e2 ||| 2))
      obtain ⟨hs1, hs2, hm1, hm2⟩ := hloop
      have hc1 := sameSkel_comp (sameSkel_setFinal a1 e1 (a1.finalv e1 ||| 2)) hs1
      have hc2 := sameSkel_comp (sameSkel_setFinal a2 e2 (a2.finalv e2 ||| 2)) hs2
      have hd1 := marksOr_comp (marksOr_setFinal2 a1 e1) hm1
      have hd2 := marksOr_comp (marksOr_setFinal2 a2 e2) hm2
      rcases hres : eqLloop d1 d2 n e1 e2
        (List.range (a1.setFinal e1 (a1.finalv e1 ||| 2)).na)
        (a1.setFinal e1 (a1.finalv e1 ||| 2)) (a2.setFinal e2 (a2.finalv e2 ||| 2))
        with ⟨ob, b1, b2⟩
      rw [hres] at hs1 hs2 hm1 hm2 hc1 hc2 hd1 hd2
      dsimp only
      rw [hres]
      cases ob with
      | some b => exact ⟨hc1, hc2, hd1, hd2⟩
      | none => exact ⟨hc1, hc2, hd1, hd2⟩

theorem loopPres_all (d1 d2 : Dict) (fuel : Nat) : loopPres d1 d2 fuel :=
  loopPres_of_recPres d1 d2 fuel (recPres_all d1 d2 fuel)

theorem loopCheck_congr (d1 : Dict) {a1 a2 b1 b2 : Automaton} (e1 e2 : Int)
    (h1 : ∀ s j, b1.trans s j = a1.trans s j)
    (h2 : ∀ s j, b2.trans s j = a2.trans s j) :
    ∀ ls, loopCheck d1 b1 b2 e1 e2 ls = loopCheck d1 a1 a2 e1 e2 ls := by
  intro ls
  induction ls with
  | nil => rfl
  | cons i rest ih =>
    unfold loopCheck
    rw [h1, h2, ih]

theorem check2_congr (d2 : Dict) {a1 a2 b1 b2 : Automaton} (e1 e2 : Int)
    (hna : b2.na = a2.na)
    (h1 : ∀ s j, b1.trans s j = a1.trans s j)
    (h2 : ∀ s j, b2.trans s j = a2.trans s j) :
    check2 d2 b1 b2 e1 e2 = check2 d2 a1 a2 e1 e2 := by
  unfold check2
  rw [hna]
  congr 1
  funext i
  rw [h1, h2]

theorem eqLloop_fst (d1 d2 : Dict) (fuel : Nat) (e1 e2 : Int) :
    ∀ ls a1 a2, (eqLloop d1 d2 fuel e1 e2 ls a1 a2).1
      = loopCheck d1 a1 a2 e1 e2 ls := by
  intro ls
  induction ls with
  | nil => intro a1 a2; rw [eqLloop]; rfl
  | cons i rest ih =>
    intro a1 a2
    rw [eqLloop]
    unfold loopCheck
    by_cases h1 : a1.trans e1 ((i : Nat) : Int) ≠ -1
    · rw [if_pos h1, if_pos h1]
      by_cases h2 : d1.get ((i : Nat) : Int) ≠ -1
      · rw [if_pos h2, if_pos h2]
        by_cases h3 : a2.trans e2 (d1.get ((i : Nat) : Int)) = -1
        · rw [if_pos h3, if_pos h3]
        · rw [if_neg h3, if_neg h3]
          obtain ⟨hs1, hs2, -, -⟩ := recPres_all d1 d2 fuel a1 a2
            (a1.trans e1 ((i : Nat) : Int)) (a2.trans e2 (d1.get ((i : Nat) : Int)))
          rw [ih]
          exact loopCheck_congr d1 e1 e2 (sameSkel_trans_eq hs1)
            (sameSkel_trans_eq hs2) rest
      · rw [if_neg h2, if_neg h2]
    · rw [if_neg h1, if_neg h1]
      exact ih a1 a2

/-- The boolean returned by one unfolding of `equalsLangages_rec`: the
entry mark test, then the local edge checks at the root pair only — the
boolean results of nested recursive calls are discarded by the C
(automataC.c:409). -/
theorem eqLrec_fst (d1 d2 : Dict) (fuel' : Nat) (a1 a2 : Automaton) (e1 e2 : Int) :
    (eqLrec d1 d2 (fuel' + 1) a1 a2 e1 e2).1 =
      (if a1.finalv e1 &&& 2 ≠ 0 ∧ a2.finalv e2 &&& 2 ≠ 0 then true
      else
        match loopCheck d1 a1 a2 e1 e2 (List.range a1.na) with
        | some b => b
        | none => check2 d2 a1 a2 e1 e2) := by
  rw [eqLrec]
  by_cases hent : a1.finalv e1 &&& 2 ≠ 0 ∧ a2.finalv e2 &&& 2 ≠ 0
  · rw [if_pos hent, if_pos hent]
  · rw [if_neg hent, if_neg hent]
    have hskel1 := sameSkel_setFinal a1 e1 (a1.finalv e1 ||| 2)
    have hskel2 := sameSkel_setFinal a2 e2 (a2.finalv e2 ||| 2)
    have hna1 : (a1.setFinal e1 (a1.finalv e1 ||| 2)).na = a1.na := sameSkel_na hskel1
    have hfst := eqLloop_fst d1 d2 fuel' e1 e2
      (List.range (a1.setFinal e1 (a1.finalv e1 ||| 2)).na)
      (a1.setFinal e1 (a1.finalv e1 ||| 2)) (a2.setFinal e2 (a2.finalv e2 ||| 2))
    have hlc : loopCheck d1 (a1.setFinal e1 (a1.finalv e1 ||| 2))
        (a2.setFinal e2 (a2.finalv e2 ||| 2)) e1 e2
        (List.range (a1.setFinal e1 (a1.finalv e1 ||| 2)).na)
        = loopCheck d1 a1 a2 e1 e2 (List.range a1.na) := by
      rw [hna1]
      exact loopCheck_congr d1 e1 e2 (sameSkel_trans_eq hskel1)
        (sameSkel_trans_eq hskel2) _
    rcases hres : eqLloop d1 d2 fuel' e1 e2
      (List.range (a1.setFinal e1 (a1.finalv e1 ||| 2)).na)
      (a1.setFinal e1 (a1.finalv e1 ||| 2)) (a2.setFinal e2 (a2.finalv e2 ||| 2))
      with ⟨ob, b1, b2⟩
    rw [hres] at hfst
    rw [← hlc, ← hfst]
    dsimp only
    rw [hres]
    cases ob with
    | some b => rfl
    | none =>
      show check2 d2 b1 b2 e1 e2 = check2 d2 a1 a2 e1 e2
      obtain ⟨hs1, hs2, -, -⟩ := loopPres_all d1 d2 fuel' e1 e2
        (List.range (a1.setFinal e1 (a1.finalv e1 ||| 2)).na)
        (a1.setFinal e1 (a1.finalv e1 ||| 2)) (a2.setFinal e2 (a2.finalv e2 ||| 2))
      rw [hres] at hs1 hs2
      have hb1 := sameSkel_comp hskel1 hs1
      have hb2 := sameSkel_comp hskel2 hs2
      exact check2_congr d2 e1 e2 (sameSkel_na hb2) (sameSkel_trans_eq hb1)
        (sameSkel_trans_eq hb2)

/-! ### Claim C2: reflexivity of `equalsLangages` under the identity
dictionary -/

theorem idDict_get (na i : Nat) (h : i < na) :
    (idDict na).get ((i : Nat) : Int) = ((i : Nat) : Int) := by
  unfold idDict Dict.get
  rw [if_neg (by omega : ¬ ((i : Nat) : Int) < 0)]
  simp only [Int.toNat_natCast]
  exact getD_map_range na _ i _ h

theorem foldl_set_getD (g : Nat → Int) (d : Int) :
    ∀ (ls : List Nat) (init : List Int) (j : Nat), j < init.length →
    ((ls.foldl (fun (l : List Int) (i : Nat) => l.set i (g i)) init).getD j d)
      = if j ∈ ls then g j else init.getD j d := by
  intro ls
  induction ls with
  | nil => intro init j hj; simp
  | cons hd tl ih =>
    intro init j hj
    show ((tl.foldl _ (init.set hd (g hd))).getD j d) = _
    rw [ih (init.set hd (g hd)) j (by rw [List.length_set]; omega)]
    by_cases htl : j ∈ tl
    · simp [htl]
    · by_cases hhd : hd = j
      · subst hhd
        rw [getD_set_eq _ _ _ _ hj]
        simp [htl]
      · rw [getD_set_ne _ _ _ _ _ hhd]
        simp [htl, Ne.symm hhd]

theorem dictGet_nat (l : List Int) (i : Nat) :
    Dict.get ⟨l⟩ ((i : Nat) : Int) = l.getD i (-1) := by
  unfold Dict.get
  rw [if_neg (by omega : ¬ ((i : Nat) : Int) < 0)]
  simp only [Int.toNat_natCast]

theorem invertLoop_idDict_get (na i : Nat) (h : i < na) :
    (invertLoop (idDict na) na).get ((i : Nat) : Int) = ((i : Nat) : Int) := by
  have hn : (idDict na).n = na := by simp [idDict, Dict.n]
  unfold invertLoop
  rw [dictGet_nat, hn]
  have hext : (List.range na).foldl
      (fun (l : List Int) (i : Nat) =>
        let v := (idDict na).get ((i : Nat) : Int)
        if v < 0 then l else l.set v.toNat ((i : Nat) : Int))
      (List.replicate na (-1))
      = (List.range na).foldl
        (fun (l : List Int) (i : Nat) => l.set i ((i : Nat) : Int))
      (List.replicate na (-1)) := by
    apply List.foldl_ext
    intro l i hil
    have hi : i < na := List.mem_range.1 hil
    rw [idDict_get na i hi]
    rw [if_neg (by omega : ¬ ((i : Nat) : Int) < 0)]
    simp only [Int.toNat_natCast]
  rw [hext, foldl_set_getD _ _ _ _ i (by rw [List.length_replicate]; omega)]
  simp [List.mem_range, h]

theorem loopCheck_self (d1 : Dict) (a : Automaton) (s : Int) :
    ∀ ls : List Nat, (∀ i ∈ ls, d1.get ((i : Nat) : Int) = ((i : Nat) : Int)) →
    loopCheck d1 a a s s ls = none := by
  intro ls
  induction ls with
  | nil => intro _; rfl
  | cons i rest ih =>
    intro hd
    unfold loopCheck
    have hdi := hd i (List.mem_cons_self i rest)
    by_cases h1 : a.trans s ((i : Nat) : Int) ≠ -1
    · rw [if_pos h1, hdi, if_pos (by omega : ((i : Nat) : Int) ≠ -1),
        if_neg h1]
      exact ih (fun j hj => hd j (List.mem_cons_of_mem i hj))
    · rw [if_neg h1]
      exact ih (fun j hj => hd j (List.mem_cons_of_mem i hj))

theorem check2_self (d2 : Dict) (a : Automaton) (s : Int)
    (hd : ∀ i : Nat, i < a.na → d2.get ((i : Nat) : Int) = ((i : Nat) : Int)) :
    check2 d2 a a s s = true := by
  unfold check2
  rw [List.all_eq_true]
  intro i hi
  have hina : i < a.na := List.mem_range.1 hi
  rw [hd i hina]
  by_cases h1 : a.trans s ((i : Nat) : Int) ≠ -1
  · rw [if_pos h1]
    have h2 : ((i : Nat) : Int) ≠ -1 := by omega
    simp [h1, h2]
  · rw [if_neg h1]

theorem equalsLangages_true_unfold (a1 a2 : Automaton) (d : Dict) :
    (equalsLangages a1 a2 d true).1 =
      (eqLrec d (invertLoop d a2.na) (a1.n + a2.n + 2) a1 a2 a1.i a2.i).1 := rfl

theorem equalsLangages_false_unfold (a1 a2 : Automaton) (d : Dict) :
    (equalsLangages a1 a2 d false).1 =
      (eqLrec d (invertLoop d (Minimise a2).na)
        ((Minimise a1).n + (Minimise a2).n + 2)
        (Minimise a1) (Minimise a2) (Minimise a1).i (Minimise a2).i).1 := rfl

/-- The co-walk of an automaton against itself under the identity
dictionary (and its inverted copy) answers `true` at any synchronized
state pair: every local edge check passes trivially. -/
theorem eqLrec_id_reflexive (na : Nat) (A : Automaton) (s : Int)
    (hna : A.na = na) :
    (eqLrec (idDict na) (invertLoop (idDict na) na) (A.n + A.n + 2) A A s s).1
      = true := by
  obtain ⟨f', hf'⟩ : ∃ f', A.n + A.n + 2 = f' + 1 := ⟨A.n + A.n + 1, rfl⟩
  rw [hf', eqLrec_fst]
  by_cases hent : A.finalv s &&& 2 ≠ 0 ∧ A.finalv s &&& 2 ≠ 0
  · rw [if_pos hent]
  · rw [if_neg hent]
    rw [loopCheck_self (idDict na) A s (List.range A.na)
      (fun i hi => idDict_get na i (by rw [← hna]; exact List.mem_range.1 hi))]
    exact check2_self _ A s
      (fun i hi => invertLoop_idDict_get na i (by rw [← hna]; exact hi))

/-- C2: under the identity letter dictionary on its own alphabet, comparing
an automaton (which must have an initial state) with itself answers `true`
— whichever value the `minimized` flag has, since with `minimized = false`
both arguments are replaced by the same minimised automaton. -/
theorem c2_equalsLangages_reflexive (a : Automaton) (mz : Bool)
    (h : a.i ≠ -1) : (equalsLangages a a (idDict a.na) mz).1 = true := by
  cases mz
  · rw [equalsLangages_false_unfold]
    rw [minimise_na a]
    exact eqLrec_id_reflexive a.na (Minimise a) (Minimise a).i (minimise_na a)
  · rw [equalsLangages_true_unfold]
    exact eqLrec_id_reflexive a.na a a.i rfl

/-- Witness for C2 at a concrete automaton with an initial state. -/
theorem c2_equalsLangages_reflexive_witness :
    a9.i ≠ -1 ∧ (equalsLangages a9 a9 (idDict a9.na) false).1 = true :=
  ⟨by decide, c2_equalsLangages_reflexive a9 false (by decide)⟩

theorem flipFinal_sameSkel (a : Automaton) (k : Int) :
    sameSkel a (flipFinal a k) := sameSkel_setFinal a k _

theorem flipFinal_bit2 (a : Automaton) (k : Int) (s : Int) :
    (flipFinal a k).finalv s &&& 2 = a.finalv s &&& 2 := by
  unfold flipFinal Automaton.setFinal
  by_cases hk0 : k < 0
  · rw [if_pos hk0]
  · rw [if_neg hk0]
    unfold Automaton.finalv Automaton.state
    by_cases hs : s < 0
    · rw [if_pos hs, if_pos hs]
    · rw [if_neg hs, if_neg hs]
      by_cases hk : k.toNat = s.toNat
      · by_cases hlt : s.toNat < a.e.length
        · rw [hk, getD_set_eq _ _ _ _ hlt]
          simp only [if_neg hk0]
          exact xor_one_and_two _
        · rw [hk, getD_ge _ _ _ (by rw [List.length_set]; omega),
            getD_ge _ _ _ (by omega : a.e.length ≤ s.toNat)]
      · rw [getD_set_ne _ _ _ _ _ hk]

/-- C3: with `minimized = true` the boolean returned by `equalsLangages`
does not depend on the finality flag of any state of either automaton: the
co-walk reads only transition structure and visit marks, never bit 0 of
the finality field. -/
theorem c3_equalsLangages_ignores_finality (a1 a2 : Automaton) (d : Dict)
    (k1 k2 : Int) (h1 : a1.i ≠ -1) (h2 : a2.i ≠ -1)
    (hk1 : 0 ≤ k1 ∧ k1 < (a1.n : Int)) (hk2 : 0 ≤ k2 ∧ k2 < (a2.n : Int)) :
    (equalsLangages (flipFinal a1 k1) a2 d true).1
      = (equalsLangages a1 a2 d true).1 ∧
    (equalsLangages a1 (flipFinal a2 k2) d true).1
      = (equalsLangages a1 a2 d true).1 := by
  have hs1 := flipFinal_sameSkel a1 k1
  have hs2 := flipFinal_sameSkel a2 k2
  constructor
  · rw [equalsLangages_true_unfold, equalsLangages_true_unfold]
    have hn : (flipFinal a1 k1).n = a1.n := sameSkel_n hs1
    have hi : (flipFinal a1 k1).i = a1.i := hs1.2.1
    have hna : (flipFinal a1 k1).na = a1.na := sameSkel_na hs1
    rw [hn, hi]
    obtain ⟨f', hf'⟩ : ∃ f', a1.n + a2.n + 2 = f' + 1 := ⟨a1.n + a2.n + 1, rfl⟩
    rw [hf', eqLrec_fst, eqLrec_fst]
    rw [hna, flipFinal_bit2]
    rw [loopCheck_congr d a1.i a2.i (sameSkel_trans_eq hs1)
      (fun s j => rfl) (List.range a1.na)]
    rw [check2_congr (invertLoop d a2.na) a1.i a2.i rfl
      (sameSkel_trans_eq hs1) (fun s j => rfl)]
  · rw [equalsLangages_true_unfold, equalsLangages_true_unfold]
    have hn : (flipFinal a2 k2).n = a2.n := sameSkel_n hs2
    have hi : (flipFinal a2 k2).i = a2.i := hs2.2.1
    have hna : (flipFinal a2 k2).na = a2.na := sameSkel_na hs2
    rw [hn, hi, hna]
    obtain ⟨f', hf'⟩ : ∃ f', a1.n + a2.n + 2 = f' + 1 := ⟨a1.n + a2.n + 1, rfl⟩
    rw [hf', eqLrec_fst, eqLrec_fst]
    rw [flipFinal_bit2]
    rw [loopCheck_congr d a1.i a2.i (fun s j => rfl)
      (sameSkel_trans_eq hs2) (List.range a1.na)]
    rw [check2_congr (invertLoop d a2.na) a1.i a2.i (sameSkel_na hs2)
      (fun s j => rfl) (sameSkel_trans_eq hs2)]

/-- Witness for C3 at concrete automata, dictionary and state indices. -/
theorem c3_equalsLangages_ignores_finality_witness :
    (a9.i ≠ -1 ∧ (0 : Int) ≤ 0 ∧ (0 : Int) < (a9.n : Int)) ∧
    (equalsLangages (flipFinal a9 0) a9 (idDict 1) true).1
      = (equalsLangages a9 a9 (idDict 1) true).1 := by
  refine ⟨⟨by decide, by decide, by decide⟩, ?_⟩
  exact (c3_equalsLangages_ignores_finality a9 a9 (idDict 1) 0 0
    (by decide) (by decide) ⟨by decide, by decide⟩ ⟨by decide, by decide⟩).1

/-! ### Claim C4: frame lemmas — traversals only toggle scratch bits -/

theorem testBit_four (k : Nat) : (4 : Nat).testBit k = decide (k = 2) := by
  match k with
  | 0 => decide
  | 1 => decide
  | 2 => decide
  | k + 3 =>
    have h2 : (4 : Nat) / 2 / 2 / 2 = 0 := by norm_num
    rw [Nat.testBit_succ, Nat.testBit_succ, Nat.testBit_succ, h2,
      Nat.zero_testBit]
    have h3 : ¬ (k + 3 = 2) := by omega
    simp [h3]

theorem or_four_and_one (x : Nat) : (x ||| 4) &&& 1 = x &&& 1 := by
  apply Nat.eq_of_testBit_eq
  intro k
  simp only [Nat.testBit_and, Nat.testBit_or, testBit_one, testBit_four]
  by_cases h : k = 2 <;> by_cases h0 : k = 0 <;> simp [h, h0]

theorem marksLow_refl (a : Automaton) : marksLow a a := fun _ => rfl

theorem marksLow_comp {a b c : Automaton} (h1 : marksLow a b) (h2 : marksLow b c) :
    marksLow a c := fun s => (h2 s).trans (h1 s)

theorem marksOr_marksLow {a b : Automaton} (h : marksOr a b) : marksLow a b := by
  intro s
  rcases h s with h' | h' <;> rw [h']
  rw [or_two_and_one]

theorem okAM_refl (a : Automaton) : okAM a a := ⟨sameSkel_refl a, marksLow_refl a⟩

theorem okAM_comp {a b c : Automaton} (h1 : okAM a b) (h2 : okAM b c) : okAM a c :=
  ⟨sameSkel_comp h1.1 h2.1, marksLow_comp h1.2 h2.2⟩

theorem finalv_getD (a : Automaton) (s : Int) (hs : ¬ s < 0) :
    a.finalv s = (a.e.getD s.toNat default).final := by
  unfold Automaton.finalv Automaton.state
  rw [if_neg hs]

theorem marksLow_setFinal (a : Automaton) (s : Int) (v : Nat)
    (hv : v &&& 1 = a.finalv s &&& 1) : marksLow a (a.setFinal s v) := by
  unfold Automaton.setFinal
  split
  · exact marksLow_refl a
  · intro t
    by_cases h : s.toNat = t
    · subst h
      by_cases hlt : s.toNat < a.e.length
      · rw [getD_set_eq _ _ _ _ hlt, hv, finalv_getD a s (by omega)]
      · rw [getD_ge _ _ _ (by rw [List.length_set]; omega),
          getD_ge _ _ _ (by omega : a.e.length ≤ s.toNat)]
    · rw [getD_set_ne _ _ _ _ _ h]

theorem okAM_setFinal_or2 (a : Automaton) (s : Int) :
    okAM a (a.setFinal s (a.finalv s ||| 2)) :=
  ⟨sameSkel_setFinal a s _, marksLow_setFinal a s _ (or_two_and_one _)⟩

theorem okAM_setFinal_or4 (a : Automaton) (s : Int) :
    okAM a (a.setFinal s (a.finalv s ||| 4)) :=
  ⟨sameSkel_setFinal a s _, marksLow_setFinal a s _ (or_four_and_one _)⟩

/-- Fold a step-respecting transitive reflexive relation through a
`foldl`. -/
theorem foldl_rel {σ α : Type} (R : σ → σ → Prop) (hrefl : ∀ s, R s s)
    (htr : ∀ {x y z : σ}, R x y → R y z → R x z)
    (f : σ → α → σ) :
    ∀ (ls : List α), (∀ (s : σ) (x : α), x ∈ ls → R s (f s x)) →
    ∀ init, R init (ls.foldl f init) := by
  intro ls
  induction ls with
  | nil => intro _ init; exact hrefl init
  | cons hd tl ih =>
    intro hstep init
    exact htr (hstep init hd (List.mem_cons_self hd tl))
      (ih (fun s x hx => hstep s x (List.mem_cons_of_mem hd hx)) (f init hd))

/-- The restored automaton equals the original whenever the call preserved
the skeleton and the low finality bits and the original was clean. -/
theorem restore_eq_low {a b : Automaton} (hskel : sameSkel a b)
    (hlow : marksLow a b) (hclean : IsClean a) : restoreFinals b = a := by
  obtain ⟨hna, hi, hlen, hf⟩ := hskel
  have he : b.e.map (fun et => { et with final := et.final &&& 1 }) = a.e := by
    apply List.ext_getElem
    · rw [List.length_map]; exact hlen
    · intro k h1 h2
      rw [List.getElem_map]
      have hkb : k < b.e.length := by rw [List.length_map] at h1; exact h1
      have hfk := hf k
      have hlk := hlow k
      rw [getD_lt _ _ _ hkb, getD_lt _ _ _ h2] at hfk hlk
      have hcl : a.e[k].final ≤ 1 := hclean _ (List.getElem_mem h2)
      have hfin : b.e[k].final &&& 1 = a.e[k].final := by
        rw [hlk, and_one_of_le_one hcl]
      show ({ f := b.e[k].f, final := b.e[k].final &&& 1 } : Etat) = a.e[k]
      rw [hfk, hfin]
  show Automaton.mk (b.e.map _) b.na b.i = a
  rw [he, hna, hi]

/-- `withFinals` with the saved finalities undoes a skeleton-preserving
call exactly (no cleanliness needed: the raw fields are written back). -/
theorem withFinals_finaux {a b : Automaton} (hskel : sameSkel a b) :
    withFinals b (finauxOf a) = a := by
  obtain ⟨hna, hi, hlen, hf⟩ := hskel
  have he : b.e.mapIdx (fun i et => { et with final := (finauxOf a).getD i 0 })
      = a.e := by
    apply List.ext_getElem
    · rw [List.length_mapIdx]; exact hlen
    · intro k h1 h2
      rw [List.getElem_mapIdx]
      have hkb : k < b.e.length := by rw [List.length_mapIdx] at h1; exact h1
      have hfk := hf k
      rw [getD_lt _ _ _ hkb, getD_lt _ _ _ h2] at hfk
      have hfin : (finauxOf a).getD k 0 = a.e[k].final := by
        unfold finauxOf
        rw [getD_lt _ _ _ (by rw [List.length_map]; exact h2), List.getElem_map]
      show ({ f := b.e[k].f, final := (finauxOf a).getD k 0 } : Etat) = a.e[k]
      rw [hfk, hfin]
  show Automaton.mk (b.e.mapIdx _) b.na b.i = a
  rw [he, hna, hi]

theorem setFinal_self {a : Automaton} {s : Int} {v : Nat}
    (h : a.finalv s = v) : a.setFinal s v = a := by
  unfold Automaton.setFinal
  split
  · rfl
  · rename_i hs
    show Automaton.mk _ a.na a.i = a
    have he : a.e.set s.toNat { a.e.getD s.toNat default with final := v } = a.e := by
      by_cases hlt : s.toNat < a.e.length
      · apply List.ext_getElem
        · rw [List.length_set]
        · intro k h1 h2
          rw [List.getElem_set]
          by_cases hk : s.toNat = k
          · subst hk
            rw [if_pos rfl, getD_lt _ _ _ hlt]
            rw [finalv_getD a s hs, getD_lt _ _ _ hlt] at h
            show ({ f := a.e[s.toNat].f, final := v } : Etat) = _
            rw [← h]
          · rw [if_neg hk]
      · exact List.set_eq_of_length_le (by omega)
    rw [he]

/-! #### `emptyLangage` frame -/

theorem emptyPres : ∀ fuel : Nat,
    (∀ (a : Automaton) (e : Int), okAM a (emptyLangage_rec a fuel e).2) ∧
    (∀ (a : Automaton) (e : Int) (ls : List Nat),
      okAM a (emptyLloop a fuel e ls).2) := by
  intro fuel
  induction fuel with
  | zero =>
    constructor
    · intro a e; rw [emptyLangage_rec]; exact okAM_refl a
    · intro a e ls
      induction ls generalizing a with
      | nil => rw [emptyLloop]; exact okAM_refl a
      | cons i rest ih =>
        rw [emptyLloop]
        by_cases h1 : a.trans e ((i : Nat) : Int) ≠ -1
        · rw [if_pos h1]
          by_cases h2 : a.finalv (a.trans e ((i : Nat) : Int)) &&& 2 ≠ 0
          · rw [if_pos h2]; exact ih a
          · rw [if_neg h2]
            have h0 : emptyLangage_rec a 0 (a.trans e ((i : Nat) : Int))
                = (true, a) := by rw [emptyLangage_rec]
            dsimp only
            rw [h0, if_neg (by decide : ¬ ((true : Bool) = false))]
            exact ih a
        · rw [if_neg h1]; exact ih a
  | succ n ihn =>
    have hrec : ∀ (a : Automaton) (e : Int), okAM a (emptyLangage_rec a (n + 1) e).2 := by
      intro a e
      rw [emptyLangage_rec]
      by_cases h0 : a.finalv e ≠ 0
      · rw [if_pos h0]; exact okAM_refl a
      · rw [if_neg h0]
        exact okAM_comp (okAM_setFinal_or2 a e) (ihn.2 _ e _)
    refine ⟨hrec, ?_⟩
    intro a e ls
    induction ls generalizing a with
    | nil => rw [emptyLloop]; exact okAM_refl a
    | cons i rest ih =>
      rw [emptyLloop]
      by_cases h1 : a.trans e ((i : Nat) : Int) ≠ -1
      · rw [if_pos h1]
        by_cases h2 : a.finalv (a.trans e ((i : Nat) : Int)) &&& 2 ≠ 0
        · rw [if_pos h2]; exact ih a
        · rw [if_neg h2]
          have hp := hrec a (a.trans e ((i : Nat) : Int))
          rcases hq : (emptyLangage_rec a (n + 1) (a.trans e ((i : Nat) : Int)))
            with ⟨rb, ra⟩
          rw [hq] at hp
          by_cases hb : rb = false
          · rw [if_pos hb]; exact hp
          · rw [if_neg hb]; exact okAM_comp hp (ih ra)
      · rw [if_neg h1]; exact ih a

theorem emptyLangage_arg (a : Automaton) (hclean : IsClean a) :
    (emptyLangage a).2 = a := by
  unfold emptyLangage
  by_cases h : a.i = -1
  · rw [if_pos h]
  · rw [if_neg h]
    have hp := (emptyPres (a.n + 1)).1 a a.i
    exact restore_eq_low hp.1 hp.2 hclean

/-! #### `StronglyConnectedComponents` frame -/

theorem sccPres : ∀ fuel : Nat,
    (∀ (st : SCCSt) (etat : Int), okAM st.a (sccRec fuel st etat).a) ∧
    (∀ (st : SCCSt) (etat : Int) (ls : List Nat),
      okAM st.a (sccLoop fuel st etat ls).a) := by
  intro fuel
  induction fuel with
  | zero =>
    constructor
    · intro st etat; rw [sccRec]; exact okAM_refl _
    · intro st etat ls
      induction ls generalizing st with
      | nil => rw [sccLoop]; exact okAM_refl _
      | cons j rest ih =>
        rw [sccLoop]
        by_cases h1 : st.a.trans etat ((j : Nat) : Int) = -1
        · rw [if_pos h1]; exact ih st
        · rw [if_neg h1]
          by_cases h2 : st.a.finalv (st.a.trans etat ((j : Nat) : Int)) &&& 2 = 0
          · rw [if_pos h2]
            show okAM st.a (sccLoop 0 _ etat rest).a
            have : (sccRec 0 st (st.a.trans etat ((j : Nat) : Int))) = st := by
              rw [sccRec]
            rw [this]
            exact ih _
          · rw [if_neg h2]
            by_cases h3 : igetI st.res (st.a.trans etat ((j : Nat) : Int)) = -1
            · rw [if_pos h3]; exact ih _
            · rw [if_neg h3]; exact ih _
  | succ n ihn =>
    have hrec : ∀ (st : SCCSt) (etat : Int), okAM st.a (sccRec (n + 1) st etat).a := by
      intro st etat
      rw [sccRec]
      have hstep : okAM st.a (st.a.setFinal etat (st.a.finalv etat ||| 2)) :=
        okAM_setFinal_or2 _ _
      have hloop := ihn.2
        { st with
          pile := st.pile.set st.cpt etat,
          m := nsetI st.m etat st.cpt,
          a := st.a.setFinal etat (st.a.finalv etat ||| 2),
          cpt := st.cpt + 1 } etat (List.range (st.a.setFinal etat (st.a.finalv etat ||| 2)).na)
      have hcomp := okAM_comp hstep hloop
      by_cases hm : ngetI (sccLoop n
          { st with
            pile := st.pile.set st.cpt etat,
            m := nsetI st.m etat st.cpt,
            a := st.a.setFinal etat (st.a.finalv etat ||| 2),
            cpt := st.cpt + 1 } etat
          (List.range (st.a.setFinal etat (st.a.finalv etat ||| 2)).na)).m etat
          = st.cpt
      · rw [if_pos hm]; exact hcomp
      · rw [if_neg hm]; exact hcomp
    refine ⟨hrec, ?_⟩
    intro st etat ls
    induction ls generalizing st with
    | nil => rw [sccLoop]; exact okAM_refl _
    | cons j rest ih =>
      rw [sccLoop]
      by_cases h1 : st.a.trans etat ((j : Nat) : Int) = -1
      · rw [if_pos h1]; exact ih st
      · rw [if_neg h1]
        by_cases h2 : st.a.finalv (st.a.trans etat ((j : Nat) : Int)) &&& 2 = 0
        · rw [if_pos h2]
          exact okAM_comp (hrec st _) (ih _)
        · rw [if_neg h2]
          by_cases h3 : igetI st.res (st.a.trans etat ((j : Nat) : Int)) = -1
          · rw [if_pos h3]; exact ih _
          · rw [if_neg h3]; exact ih _

theorem scc_arg (a : Automaton) (hclean : IsClean a) :
    (StronglyConnectedComponents a).2.2 = a := by
  unfold StronglyConnectedComponents
  have hstep : ∀ (st : SCCSt) (i : Nat), i ∈ List.range a.n →
      okAM st.a (if igetI st.res ((i : Nat) : Int) = -1 then
        sccRec (st.a.n + 1) st ((i : Nat) : Int) else st).a := by
    intro st i _
    by_cases h : igetI st.res ((i : Nat) : Int) = -1
    · rw [if_pos h]; exact (sccPres (st.a.n + 1)).1 st _
    · rw [if_neg h]; exact okAM_refl _
  have hfold := foldl_rel (σ := SCCSt) (fun st st' => okAM st.a st'.a)
    (fun st => okAM_refl _) (fun h1 h2 => okAM_comp h1 h2)
    (fun st (i : Nat) =>
      if igetI st.res ((i : Nat) : Int) = -1 then sccRec (st.a.n + 1) st ((i : Nat) : Int)
      else st)
    (List.range a.n) hstep
    { a := a, pile := List.replicate a.n 0, m := List.replicate a.n 0,
      res := List.replicate a.n (-1), cpt := 0, cpt2 := 0 }
  exact restore_eq_low hfold.1 hfold.2 hclean

/-! #### `emonde` frame -/

theorem emondePres (l : List Int) (idv : List (List Nat)) : ∀ fuel : Nat,
    (∀ (a : Automaton) (etat : Int), okAM a (emondeRec l idv fuel a etat)) ∧
    (∀ (a : Automaton) (etat : Int) (ls : List Nat),
      okAM a (emondeLoop l idv fuel a etat ls)) := by
  have hfold : ∀ (a : Automaton) (bkt : List Nat),
      okAM a (bkt.foldl (fun (a : Automaton) (j : Nat) =>
        a.setFinal ((j : Nat) : Int) (a.finalv ((j : Nat) : Int) ||| 4)) a) := by
    intro a bkt
    exact foldl_rel (σ := Automaton) okAM okAM_refl (fun h1 h2 => okAM_comp h1 h2)
      _ bkt (fun b j _ => okAM_setFinal_or4 b _) a
  have hprop : ∀ (a : Automaton) (c : Prop) (hc : Decidable c) (bkt : List Nat),
      okAM a (@ite _ c hc
        (bkt.foldl (fun (a : Automaton) (j : Nat) =>
          a.setFinal ((j : Nat) : Int) (a.finalv ((j : Nat) : Int) ||| 4)) a) a) := by
    intro a c hc bkt
    by_cases h : c
    · rw [if_pos h]; exact hfold a bkt
    · rw [if_neg h]; exact okAM_refl a
  intro fuel
  induction fuel with
  | zero =>
    constructor
    · intro a etat; rw [emondeRec]; exact okAM_refl _
    · intro a etat ls
      induction ls generalizing a with
      | nil => rw [emondeLoop]; exact okAM_refl _
      | cons i rest ih =>
        rw [emondeLoop]
        by_cases h1 : a.trans etat ((i : Nat) : Int) = -1
        · rw [if_pos h1]; exact ih a
        · rw [if_neg h1]
          have hr : (if a.finalv (a.trans etat ((i : Nat) : Int)) &&& 2 = 0 then
              emondeRec l idv 0 a (a.trans etat ((i : Nat) : Int)) else a) = a := by
            split
            · rw [emondeRec]
            · rfl
          rw [hr]
          exact okAM_comp (hprop a _ _ _) (ih _)
  | succ n ihn =>
    have hrec : ∀ (a : Automaton) (etat : Int),
        okAM a (emondeRec l idv (n + 1) a etat) := by
      intro a etat
      rw [emondeRec]
      exact okAM_comp (okAM_setFinal_or2 a etat) (ihn.2 _ etat _)
    refine ⟨hrec, ?_⟩
    intro a etat ls
    induction ls generalizing a with
    | nil => rw [emondeLoop]; exact okAM_refl _
    | cons i rest ih =>
      rw [emondeLoop]
      by_cases h1 : a.trans etat ((i : Nat) : Int) = -1
      · rw [if_pos h1]; exact ih a
      · rw [if_neg h1]
        have hstep1 : okAM a (if a.finalv (a.trans etat ((i : Nat) : Int)) &&& 2 = 0 then
            emondeRec l idv (n + 1) a (a.trans etat ((i : Nat) : Int)) else a) := by
          split
          · exact hrec a _
          · exact okAM_refl a
        exact okAM_comp hstep1 (okAM_comp (hprop _ _ _ _) (ih _))

theorem or4fold_okAM (a : Automaton) (bkt : List Nat) :
    okAM a (bkt.foldl (fun (a : Automaton) (j : Nat) =>
      a.setFinal ((j : Nat) : Int) (a.finalv ((j : Nat) : Int) ||| 4)) a) :=
  foldl_rel (σ := Automaton) okAM okAM_refl (fun h1 h2 => okAM_comp h1 h2)
    _ bkt (fun b j _ => okAM_setFinal_or4 b _) a

theorem emondeNormFold_fst (a : Automaton) (hclean : IsClean a)
    (l0 : List Int) :
    ∀ (ls : List Nat) (p : Automaton × List (List Nat)), p.1 = a →
    ((ls.foldl (fun (p : Automaton × List (List Nat)) (i : Nat) =>
      ((if p.1.finalv ((i : Nat) : Int) ≠ 0 then p.1.setFinal ((i : Nat) : Int) 1
        else p.1),
        idvAdd p.2 (igetI l0 ((i : Nat) : Int)) i)) p).1) = a := by
  intro ls
  induction ls with
  | nil => intro p hp; exact hp
  | cons i rest ih =>
    intro p hp
    apply ih
    show (if p.1.finalv ((i : Nat) : Int) ≠ 0 then _ else p.1) = a
    rw [hp]
    by_cases h : a.finalv ((i : Nat) : Int) ≠ 0
    · rw [if_pos h]
      apply setFinal_self
      rw [finalv_getD a _ (by omega : ¬ ((i : Nat) : Int) < 0)] at h ⊢
      by_cases hlt : i < a.e.length
      · simp only [Int.toNat_natCast] at h ⊢
        rw [getD_lt _ _ _ hlt] at h ⊢
        have := hclean _ (List.getElem_mem hlt)
        omega
      · simp only [Int.toNat_natCast] at h
        rw [getD_ge _ _ _ (by omega)] at h
        exact absurd rfl h
    · rw [if_neg h]

theorem emondeProp_okAM (n : Nat) (l0 : List Int) (idv : List (List Nat))
    (a : Automaton) : okAM a (emondeProp n l0 idv a) := by
  unfold emondeProp
  apply foldl_rel (σ := Automaton) okAM okAM_refl (fun h1 h2 => okAM_comp h1 h2)
  intro b i _
  by_cases h : b.finalv ((i : Nat) : Int) &&& 1 ≠ 0
  · rw [if_pos h]; exact or4fold_okAM b _
  · rw [if_neg h]; exact okAM_refl b

theorem emondeMark_okAM (a : Automaton) (hclean : IsClean a) :
    okAM a (emondeMark a) := by
  unfold emondeMark
  dsimp only
  rw [scc_arg a hclean]
  rw [show (emondeNormFold a.n (StronglyConnectedComponents a).2.1
      (a, List.replicate (StronglyConnectedComponents a).1 ([] : List Nat))).1 = a from
    emondeNormFold_fst a hclean _ _ _ rfl]
  have hp := emondeProp_okAM a.n (StronglyConnectedComponents a).2.1
    (emondeNormFold a.n (StronglyConnectedComponents a).2.1
      (a, List.replicate (StronglyConnectedComponents a).1 ([] : List Nat))).2 a
  by_cases h : a.i ≠ -1
  · rw [if_pos h]
    exact okAM_comp hp ((emondePres _ _ (a.n + 1)).1 _ a.i)
  · rw [if_neg h]
    exact hp

theorem emonde_arg (a : Automaton) (hclean : IsClean a) :
    (emonde a).2 = a := by
  have h := emondeMark_okAM a hclean
  show restoreFinals (emondeMark a) = a
  exact restore_eq_low h.1 h.2 hclean

/-! #### `emondeI` frame -/

theorem emondeIPres : ∀ (fuel : Nat) (a : Automaton) (etat : Int),
    okAM a (emondeIRec fuel a etat) := by
  intro fuel
  induction fuel with
  | zero => intro a etat; exact okAM_refl _
  | succ n ihn =>
    intro a etat
    show okAM a ((List.range _).foldl _ (a.setFinal etat (a.finalv etat ||| 2)))
    refine okAM_comp (okAM_setFinal_or2 a etat) ?_
    apply foldl_rel (σ := Automaton) okAM okAM_refl (fun h1 h2 => okAM_comp h1 h2)
    intro b i _
    dsimp only
    by_cases h1 : b.trans etat ((i : Nat) : Int) = -1
    · rw [if_pos h1]; exact okAM_refl b
    · rw [if_neg h1]
      by_cases h2 : b.finalv (b.trans etat ((i : Nat) : Int)) &&& 2 = 0
      · rw [if_pos h2]; exact ihn b _
      · rw [if_neg h2]; exact okAM_refl b

theorem emondeI_marked_okAM (a : Automaton) : okAM a (emondeI_marked a) := by
  unfold emondeI_marked
  by_cases h : a.i ≠ -1
  · rw [if_pos h]; exact emondeIPres (a.n + 1) a a.i
  · rw [if_neg h]; exact okAM_refl a

theorem emondeI_arg (a : Automaton) (hclean : IsClean a) :
    (emondeI a).2 = a := by
  have h := emondeI_marked_okAM a
  show restoreFinals (emondeI_marked a) = a
  exact restore_eq_low h.1 h.2 hclean

/-! #### `emonde_inf` frame -/

theorem zeroFinals_sameSkel (a : Automaton) : sameSkel a (zeroFinals a) := by
  unfold sameSkel zeroFinals
  dsimp only
  refine ⟨rfl, rfl, List.length_map _ _, fun s => ?_⟩
  by_cases h : s < a.e.length
  · rw [getD_lt _ _ _ (by rw [List.length_map]; omega), getD_lt _ _ _ h,
      List.getElem_map]
  · rw [getD_ge _ _ _ (by rw [List.length_map]; omega), getD_ge _ _ _ (by omega)]

theorem einfRec_succ (n : Nat) (a : Automaton) (etat : Int) :
    einfRec (n + 1) a etat =
      (let p := (List.range (a.setFinal etat 1).na).foldl
        (einfStep n etat) ((false : Bool), a.setFinal etat 1)
      if p.1 = false then ((false : Bool), p.2.setFinal etat 2)
      else (true, p.2)) := rfl

theorem einfPres : ∀ (fuel : Nat) (a : Automaton) (etat : Int),
    sameSkel a (einfRec fuel a etat).2 := by
  intro fuel
  induction fuel with
  | zero => intro a etat; exact sameSkel_refl _
  | succ n ihn =>
    intro a etat
    rw [einfRec_succ]
    dsimp only
    have hstep : ∀ (p : Bool × Automaton) (i : Nat),
        i ∈ List.range (a.setFinal etat 1).na →
        sameSkel p.2 (einfStep n etat p i).2 := by
      intro p i _
      unfold einfStep
      dsimp only
      by_cases h1 : p.2.trans etat ((i : Nat) : Int) = -1
      · rw [if_pos h1]; exact sameSkel_refl p.2
      · rw [if_neg h1]
        dsimp only
        by_cases h2 : p.2.finalv (p.2.trans etat ((i : Nat) : Int)) = 0
        · rw [if_pos h2]; exact ihn p.2 _
        · rw [if_neg h2]; exact sameSkel_refl p.2
    have hp := foldl_rel (σ := Bool × Automaton)
      (fun p q => sameSkel p.2 q.2) (fun p => sameSkel_refl p.2)
      (fun h1 h2 => sameSkel_comp h1 h2) (einfStep n etat)
      (List.range (a.setFinal etat 1).na) hstep
      ((false : Bool), a.setFinal etat 1)
    by_cases hb : ((List.range (a.setFinal etat 1).na).foldl (einfStep n etat)
        ((false : Bool), a.setFinal etat 1)).1 = false
    · rw [if_pos hb]
      exact sameSkel_comp (sameSkel_comp (sameSkel_setFinal a etat 1) hp)
        (sameSkel_setFinal _ etat 2)
    · rw [if_neg hb]
      exact sameSkel_comp (sameSkel_setFinal a etat 1) hp

theorem einfMarked_sameSkel (a : Automaton) : sameSkel a (einfMarked a) := by
  unfold einfMarked
  by_cases h : a.i ≠ -1
  · rw [if_pos h]
    exact sameSkel_comp (zeroFinals_sameSkel a)
      (einfPres (a.n + 1) (zeroFinals a) a.i)
  · rw [if_neg h]
    exact zeroFinals_sameSkel a

theorem emonde_inf_arg (a : Automaton) : (emonde_inf a).2 = a := by
  show withFinals (einfMarked a) (finauxOf a) = a
  exact withFinals_finaux (einfMarked_sameSkel a)

/-! #### `equalsLangages (minimized := true)` frame -/

theorem equalsLangages_true_args (a1 a2 : Automaton) (d : Dict)
    (h1 : IsClean a1) (h2 : IsClean a2) :
    (equalsLangages a1 a2 d true).2.1 = a1 ∧
    (equalsLangages a1 a2 d true).2.2 = a2 := by
  have hp := recPres_all d (invertLoop d a2.na) (a1.n + a2.n + 2) a1 a2 a1.i a2.i
  constructor
  · show restoreFinals
      (eqLrec d (invertLoop d a2.na) (a1.n + a2.n + 2) a1 a2 a1.i a2.i).2.1 = a1
    exact restore_eq_low hp.1 (marksOr_marksLow hp.2.2.1) h1
  · show restoreFinals
      (eqLrec d (invertLoop d a2.na) (a1.n + a2.n + 2) a1 a2 a1.i a2.i).2.2 = a2
    exact restore_eq_low hp.2.1 (marksOr_marksLow hp.2.2.2) h2

theorem equalsLangages_false_args (a1 a2 : Automaton) (d : Dict)
    (h1 : IsClean (Minimise a1)) (h2 : IsClean (Minimise a2)) :
    (equalsLangages a1 a2 d false).2.1 = Minimise a1 ∧
    (equalsLangages a1 a2 d false).2.2 = Minimise a2 := by
  have hp := recPres_all d (invertLoop d (Minimise a2).na)
    ((Minimise a1).n + (Minimise a2).n + 2) (Minimise a1) (Minimise a2)
    (Minimise a1).i (Minimise a2).i
  constructor
  · show restoreFinals
      (eqLrec d (invertLoop d (Minimise a2).na)
        ((Minimise a1).n + (Minimise a2).n + 2) (Minimise a1) (Minimise a2)
        (Minimise a1).i (Minimise a2).i).2.1 = Minimise a1
    exact restore_eq_low hp.1 (marksOr_marksLow hp.2.2.1) h1
  · show restoreFinals
      (eqLrec d (invertLoop d (Minimise a2).na)
        ((Minimise a1).n + (Minimise a2).n + 2) (Minimise a1) (Minimise a2)
        (Minimise a1).i (Minimise a2).i).2.2 = Minimise a2
    exact restore_eq_low hp.2.1 (marksOr_marksLow hp.2.2.2) h2

/-- C4 as stated is false: with `minimized = false`, `equalsLangages`
frees its argument automata and replaces them by their minimisations
(automataC.c:444-450); on `aOne` the replacement has a different state
count, so the transition table is not identical before and after. -/
theorem c4_counterexample_equalsLangages_mutates :
    (equalsLangages aOne aOne (idDict 1) false).2.1 ≠ aOne ∧
    ((equalsLangages aOne aOne (idDict 1) false).2.1.n = 2 ∧ aOne.n = 1) := by
  have hm : (equalsLangages aOne aOne (idDict 1) false).2.1 = Minimise aOne :=
    (equalsLangages_false_args aOne aOne (idDict 1) (by decide) (by decide)).1
  refine ⟨?_, ?_, by decide⟩
  · rw [hm]; decide
  · rw [hm]; decide

/-- C4 (amended): none of `emonde`, `emondeI`, `emonde_inf`,
`StronglyConnectedComponents`, `emptyLangage`, or `equalsLangages` with
`minimized = true` mutates its automaton arguments observably: on clean
automata (boolean finality fields) the argument returned after the call is
identical to the one passed in — all scratch bits written into the
finality field are restored.  (`Product` and `Determinise` never write
their argument automata at all — automataC.c:525-585 and 887-1108 write
only the freshly allocated result — so their embeddings take the
arguments read-only; `equalsLangages` with `minimized = false` replaces
both arguments by their minimisations, see the counterexample.) -/
theorem c4_no_argument_mutation (a a1 a2 : Automaton) (d : Dict)
    (hc : IsClean a) (hc1 : IsClean a1) (hc2 : IsClean a2) :
    (emptyLangage a).2 = a ∧
    (StronglyConnectedComponents a).2.2 = a ∧
    (emonde a).2 = a ∧
    (emondeI a).2 = a ∧
    (emonde_inf a).2 = a ∧
    (equalsLangages a1 a2 d true).2.1 = a1 ∧
    (equalsLangages a1 a2 d true).2.2 = a2 :=
  ⟨emptyLangage_arg a hc, scc_arg a hc, emonde_arg a hc, emondeI_arg a hc,
    emonde_inf_arg a, (equalsLangages_true_args a1 a2 d hc1 hc2).1,
    (equalsLangages_true_args a1 a2 d hc1 hc2).2⟩

/-- Witness for C4 (amended) at concrete clean automata. -/
theorem c4_no_argument_mutation_witness :
    IsClean a9 ∧ (emonde a9).2 = a9 ∧ (emondeI a9).2 = a9 :=
  ⟨by decide,
    (c4_no_argument_mutation a9 a9 a9 (idDict 1) (by decide) (by decide)
      (by decide)).2.2.1,
    (c4_no_argument_mutation a9 a9 a9 (idDict 1) (by decide) (by decide)
      (by decide)).2.2.2.1⟩

/-! ### Claim C10: the unguarded restore write of `emondeI` -/

/-- C10 is false of the code: the restore loop of `emondeI`
(automataC.c:1690-1706) runs over every state `i` of the input and
executes `r.e[l[i]].final = a.e[i].final` with no `l[i] != -1` guard
(contrast the guarded loop of `emonde`, automataC.c:1605-1607).  On `a9`
(two states, one letter, no transitions, initial state 1) state 0 is not
accessible, the renumbering array is `l = [-1, 0]`, and the iteration
`i = 0` of the restore loop dereferences `r.e[-1]` — an out-of-bounds
write, so the ABSENT-index branch is reachable.  (The embedding of
`emondeI` keeps only the in-bounds writes; this theorem exhibits an input
reaching the dropped branch.) -/
theorem c10_emondeI_restore_write_out_of_bounds :
    emondeI_l a9 = [-1, 0] ∧ 0 < a9.n ∧ (emondeI a9).1.n = 1 := by
  decide

/-! ### Claim C1: `Minimise` does not always return a minimal automaton -/

theorem accepts_none_of_even_finals (a : Automaton)
    (h : ∀ et ∈ a.e, et.final % 2 = 0) (w : List Nat) : ¬ accepts a w := by
  intro hacc
  obtain ⟨-, -, hfin⟩ := hacc
  have hs : ∀ s : Int, a.finalv s % 2 = 0 := by
    intro s
    unfold Automaton.finalv Automaton.state
    by_cases hneg : s < 0
    · rw [if_pos hneg]; rfl
    · rw [if_neg hneg]
      by_cases hlt : s.toNat < a.e.length
      · rw [getD_lt _ _ _ hlt]
        exact h _ (List.getElem_mem hlt)
      · rw [getD_ge _ _ _ (by omega)]; rfl
  have := hs (deltaW a a.i w)
  omega

/-- C1 is false of the code: `Minimise` does not return a minimal
automaton.  On `aOne` (one non-final state, one letter, no transition —
its language is empty) `Minimise` returns a TWO-state automaton: with no
final state the partition refinement degenerates and the sink-deletion
step does not fire, leaving a spurious state.  The input itself is a
deterministic automaton with strictly fewer states accepting the same
(empty) language, contradicting the claimed minimality (under the
implicit-sink convention even the 0-state automaton accepts it). -/
theorem c1_minimise_not_minimal :
    aOne.n < (Minimise aOne).n ∧
    (∀ w : List Nat, accepts aOne w ↔ accepts (Minimise aOne) w) := by
  constructor
  · decide
  · intro w
    constructor
    · intro h
      exact absurd h (accepts_none_of_even_finals aOne (by decide) w)
    · intro h
      exact absurd h (accepts_none_of_even_finals (Minimise aOne) (by decide) w)

/-- C5 as stated is false: state 1 of `a5` lies on a cycle (a self-loop),
yet `emonde_inf` discards every state and returns the empty automaton —
the marking recursion is launched from the initial state only
(automataC.c:1219-1221), so states unreachable from it are never marked
kept, whether or not an infinite run starts there. -/
theorem c5_counterexample_unreachable_cycle_state :
    (emonde_inf a5).1.n = 0 ∧ reachesCycle a5 1 :=
  ⟨by decide, ⟨1, Relation.ReflTransGen.refl,
    Relation.TransGen.single ⟨0, by decide, by decide, by decide⟩⟩⟩

theorem countP_set_lt {α : Type} (p : α → Bool) :
    ∀ (l : List α) (i : Nat) (x : α) (hi : i < l.length),
      p (l.get ⟨i, hi⟩) = true → p x = false →
      (l.set i x).countP p < l.countP p := by
  intro l
  induction l with
  | nil => intro i x hi; simp at hi
  | cons a t ih =>
    intro i x hi hold hnew
    cases i with
    | zero =>
      simp only [List.set_cons_zero, List.countP_cons]
      simp only [List.get] at hold
      rw [hold, hnew]
      simp
    | succ n =>
      simp only [List.set_cons_succ, List.countP_cons]
      have := ih n x (by simpa using hi) (by simpa using hold) hnew
      omega

theorem countP_le_pointwise {α : Type} (p : α → Bool) :
    ∀ (l2 l1 : List α), l2.length = l1.length →
      (∀ (i : Nat) (h2 : i < l2.length) (h1 : i < l1.length),
        p (l2.get ⟨i, h2⟩) = true → p (l1.get ⟨i, h1⟩) = true) →
      l2.countP p ≤ l1.countP p := by
  intro l2
  induction l2 with
  | nil => intro l1 _ _; simp
  | cons x t ih =>
    intro l1 hlen h
    cases l1 with
    | nil => simp at hlen
    | cons y t1 =>
      simp only [List.countP_cons]
      have h0 := h 0 (by simp) (by simp)
      simp only [List.get] at h0
      have ht : t.countP p ≤ t1.countP p := by
        refine ih t1 (by simpa using hlen) ?_
        intro i h2 h1 hp
        have := h (i + 1) (by simpa using Nat.succ_lt_succ h2)
          (by simpa using Nat.succ_lt_succ h1) (by simpa using hp)
        simpa using this
      by_cases hx : p x = true
      · rw [if_pos hx, if_pos (h0 hx)]
        omega
      · rw [if_neg hx]
        omega

theorem state_oor (b : Automaton) (s : Int)
    (h : s < 0 ∨ (b.n : Int) ≤ s) : b.state s = default := by
  unfold Automaton.state
  rcases h with h | h
  · rw [if_pos h]
  · rw [if_neg (by omega)]
    exact getD_ge _ _ _ (by show b.e.length ≤ s.toNat; unfold Automaton.n at h; omega)

theorem finalv_oor (b : Automaton) (s : Int)
    (h : s < 0 ∨ (b.n : Int) ≤ s) : b.finalv s = 0 := by
  show (b.state s).final = 0
  rw [state_oor b s h]
  rfl

theorem trans_oor (b : Automaton) (s : Int) (j : Int)
    (h : s < 0 ∨ (b.n : Int) ≤ s) : b.trans s j = -1 := by
  unfold Automaton.trans
  by_cases hj : j < 0
  · rw [if_pos hj]
  · rw [if_neg hj, state_oor b s h]
    rfl

theorem setFinal_na (b : Automaton) (s : Int) (v : Nat) :
    (b.setFinal s v).na = b.na := by
  unfold Automaton.setFinal
  split <;> rfl

theorem setFinal_n (b : Automaton) (s : Int) (v : Nat) :
    (b.setFinal s v).n = b.n := by
  unfold Automaton.setFinal
  split
  · rfl
  · show (b.e.set _ _).length = b.e.length
    exact List.length_set _ _ _

theorem setFinal_oor (b : Automaton) (s : Int) (v : Nat)
    (h : s < 0 ∨ (b.n : Int) ≤ s) : b.setFinal s v = b := by
  unfold Automaton.setFinal
  rcases h with h | h
  · rw [if_pos h]
  · rw [if_neg (by omega)]
    have hset : b.e.set s.toNat { b.e.getD s.toNat default with final := v } = b.e :=
      List.set_eq_of_length_le (by show b.e.length ≤ s.toNat; unfold Automaton.n at h; omega)
    rw [hset]

theorem finalv_setFinal (b : Automaton) (etat : Int) (v : Nat)
    (h0 : 0 ≤ etat) (hn : etat < (b.n : Int)) (s : Int) :
    (b.setFinal etat v).finalv s = if s = etat then v else b.finalv s := by
  unfold Automaton.setFinal
  rw [if_neg (by omega)]
  by_cases hs : s = etat
  · subst hs
    rw [if_pos rfl]
    show (Automaton.state _ s).final = v
    unfold Automaton.state
    rw [if_neg (by omega)]
    dsimp only
    rw [getD_set_eq _ _ _ _ (by show s.toNat < b.e.length; unfold Automaton.n at hn; omega)]
  · rw [if_neg hs]
    show (Automaton.state _ s).final = (Automaton.state b s).final
    unfold Automaton.state
    by_cases hsneg : s < 0
    · rw [if_pos hsneg, if_pos hsneg]
    · rw [if_neg hsneg, if_neg hsneg]
      dsimp only
      rw [getD_set_ne _ _ _ _ _ (by omega)]

theorem zerosA_lt_setFinal (b : Automaton) (etat : Int) (v : Nat)
    (h0 : 0 ≤ etat) (hn : etat < (b.n : Int)) (hz : b.finalv etat = 0)
    (hv : v ≠ 0) : zerosA (b.setFinal etat v) < zerosA b := by
  unfold Automaton.setFinal
  rw [if_neg (by omega)]
  show (b.e.set _ _).countP _ < b.e.countP _
  have hlen : etat.toNat < b.e.length := by unfold Automaton.n at hn; omega
  refine countP_set_lt _ b.e etat.toNat _ hlen ?_ ?_
  · rw [List.get_eq_getElem, ← getD_lt b.e etat.toNat default hlen]
    rw [finalv_getD b etat (by omega)] at hz
    simp only [beq_iff_eq]
    exact hz
  · simp [hv]

theorem zerosA_le_of_pointwise {a0 b c : Automaton} (hb : sameSkel a0 b)
    (hc : sameSkel a0 c) (h : ∀ s : Int, c.finalv s = 0 → b.finalv s = 0) :
    zerosA c ≤ zerosA b := by
  refine countP_le_pointwise _ c.e b.e (hc.2.2.1.trans hb.2.2.1.symm) ?_
  intro i h2 h1 hp
  simp only [List.get_eq_getElem, beq_iff_eq] at hp ⊢
  have hcf : c.finalv ((i : Nat) : Int) = 0 := by
    rw [finalv_getD c _ (by omega), Int.toNat_natCast, getD_lt _ _ _ h2]
    exact hp
  have hbf := h _ hcf
  rw [finalv_getD b _ (by omega), Int.toNat_natCast, getD_lt _ _ _ h1] at hbf
  exact hbf

theorem stepR_src_inRange {a : Automaton} {s t : Int} (h : stepR a s t) :
    inRangeI a s := by
  by_contra hc
  obtain ⟨j, hj, htr, hne⟩ := h
  rw [trans_oor a s _ (by unfold inRangeI at hc; omega)] at htr
  exact hne htr.symm

theorem reachesCycle_head {a : Automaton} {s t : Int} (hst : stepR a s t)
    (h : reachesCycle a t) : reachesCycle a s := by
  obtain ⟨u, hu, hc⟩ := h
  exact ⟨u, Relation.ReflTransGen.head hst hu, hc⟩

theorem reachesCycle_step {a : Automaton} {s : Int} (h : reachesCycle a s) :
    ∃ t : Int, stepR a s t ∧ reachesCycle a t := by
  obtain ⟨u, hu, hc⟩ := h
  rcases Relation.ReflTransGen.cases_head hu with heq | ⟨v, hsv, hvu⟩
  · subst heq
    obtain ⟨v, hsv, hvs⟩ := (Relation.TransGen.head'_iff).mp hc
    exact ⟨v, hsv, s, hvs, hc⟩
  · exact ⟨v, hsv, u, hvu, hc⟩

/-- One iteration of the letter loop of `emonde_inf_rec` preserves the
DFS invariant, erases no mark, marks only states reachable from `etat`,
raises the flag only if `etat` reaches a cycle, keeps the flag down only
if the scanned successor does not reach a cycle, and leaves a valid
scanned successor marked. -/
theorem einfStep_spec (a0 : Automaton) (m : Nat) (S : List Int) (etat : Int)
    (hIH : ∀ (b : Automaton) (T : List Int) (e : Int),
      einfInv a0 b T → b.finalv e = 0 →
      (∀ s ∈ T, Relation.ReflTransGen (stepR a0) s e) →
      zerosA b < m → einfRecPost a0 b T e (einfRec m b e))
    (hstack : ∀ s ∈ S ++ [etat], Relation.ReflTransGen (stepR a0) s etat)
    (i : Nat) (hi : i < a0.na) (p : Bool × Automaton)
    (hinv : einfInv a0 p.2 (S ++ [etat]))
    (hflag : p.1 = true → reachesCycle a0 etat)
    (hz : zerosA p.2 < m) :
    einfInv a0 (einfStep m etat p i).2 (S ++ [etat]) ∧
    ((einfStep m etat p i).1 = true → reachesCycle a0 etat) ∧
    zerosA (einfStep m etat p i).2 < m ∧
    (∀ s : Int, (einfStep m etat p i).2.finalv s = 0 → p.2.finalv s = 0) ∧
    (∀ s : Int, (einfStep m etat p i).2.finalv s ≠ 0 →
      p.2.finalv s ≠ 0 ∨ Relation.ReflTransGen (stepR a0) etat s) ∧
    ((einfStep m etat p i).1 = false → p.1 = false ∧
      (a0.trans etat ((i : Nat) : Int) = -1 ∨
        ¬ reachesCycle a0 (a0.trans etat ((i : Nat) : Int)))) ∧
    (a0.trans etat ((i : Nat) : Int) ≠ -1 →
      inRangeI a0 (a0.trans etat ((i : Nat) : Int)) →
      (einfStep m etat p i).2.finalv (a0.trans etat ((i : Nat) : Int)) ≠ 0) := by
  have htr : p.2.trans etat ((i : Nat) : Int) = a0.trans etat ((i : Nat) : Int) :=
    sameSkel_trans_eq hinv.1 etat ((i : Nat) : Int)
  by_cases hf1 : p.2.trans etat ((i : Nat) : Int) = -1
  · have hpv : einfStep m etat p i = p := by
      unfold einfStep
      dsimp only
      rw [if_pos hf1]
    rw [hpv]
    exact ⟨hinv, hflag, hz, fun s h => h, fun s h => Or.inl h,
      fun hp1 => ⟨hp1, Or.inl (htr.symm.trans hf1)⟩,
      fun hne _ => absurd (htr.symm.trans hf1) hne⟩
  · have hstepR : stepR a0 etat (a0.trans etat ((i : Nat) : Int)) :=
      ⟨i, hi, rfl, fun h => hf1 (htr.trans h)⟩
    by_cases hf0 : p.2.finalv (p.2.trans etat ((i : Nat) : Int)) = 0
    · -- the successor is unvisited: the recursive call fires
      have hstackf : ∀ s ∈ S ++ [etat],
          Relation.ReflTransGen (stepR a0) s (p.2.trans etat ((i : Nat) : Int)) := by
        intro s hs
        rw [htr]
        exact (hstack s hs).tail hstepR
      have hpost := hIH p.2 (S ++ [etat]) (p.2.trans etat ((i : Nat) : Int))
        hinv hf0 hstackf hz
      have hpv2 : (einfStep m etat p i).2
          = (einfRec m p.2 (p.2.trans etat ((i : Nat) : Int))).2 := by
        unfold einfStep
        dsimp only
        rw [if_neg hf1, if_pos hf0]
      have hpv1 : (einfStep m etat p i).1
          = (p.1 || (einfRec m p.2 (p.2.trans etat ((i : Nat) : Int))).1) := by
        unfold einfStep
        dsimp only
        rw [if_neg hf1, if_pos hf0, hf0]
        simp
      have hRCf : (einfRec m p.2 (p.2.trans etat ((i : Nat) : Int))).1 = true →
          reachesCycle a0 (a0.trans etat ((i : Nat) : Int)) := by
        intro h
        have := hpost.2.2.2.1 h
        rw [htr] at this
        exact this
      refine ⟨?_, ?_, ?_, ?_, ?_, ?_, ?_⟩
      · rw [hpv2]; exact hpost.1
      · rw [hpv1]
        intro hor
        cases hp1 : p.1 with
        | true => exact hflag hp1
        | false =>
          rw [hp1] at hor
          simp only [Bool.false_or] at hor
          exact reachesCycle_head hstepR (hRCf hor)
      · rw [hpv2]
        have := zerosA_le_of_pointwise hinv.1 hpost.1.1 hpost.2.1
        omega
      · rw [hpv2]; exact hpost.2.1
      · rw [hpv2]
        intro s hne
        rcases hpost.2.2.1 s hne with h | h
        · exact Or.inl h
        · right
          rw [htr] at h
          exact Relation.ReflTransGen.head hstepR h
      · rw [hpv1]
        intro hfl
        rw [Bool.or_eq_false_iff] at hfl
        refine ⟨hfl.1, Or.inr ?_⟩
        have := hpost.2.2.2.2.1 hfl.2
        rw [htr] at this
        exact this
      · intro hne hrange
        rw [hpv2, ← htr]
        rw [← htr] at hrange
        exact hpost.2.2.2.2.2 hrange
    · -- the successor is already marked (1 or 2): no recursive call
      have hpv2 : (einfStep m etat p i).2 = p.2 := by
        unfold einfStep
        dsimp only
        rw [if_neg hf1, if_neg hf0]
      by_cases hfv1 : p.2.finalv (p.2.trans etat ((i : Nat) : Int)) = 1
      · -- mark 1: a cycle through the stack (or a known cycle-reacher)
        have hpv1 : (einfStep m etat p i).1 = true := by
          unfold einfStep
          dsimp only
          rw [if_neg hf1, if_neg hf0, hfv1]
          simp
        have hRC : reachesCycle a0 etat := by
          rcases hinv.2.1 _ hfv1 with hmem | hrc
          · have hpath := hstack _ hmem
            rw [htr] at hpath
            exact ⟨_, Relation.ReflTransGen.single hstepR,
              Relation.TransGen.tail' hpath hstepR⟩
          · rw [htr] at hrc
            exact reachesCycle_head hstepR hrc
        refine ⟨?_, fun _ => hRC, ?_, ?_, ?_, ?_, ?_⟩
        · rw [hpv2]; exact hinv
        · rw [hpv2]; exact hz
        · rw [hpv2]; exact fun s h => h
        · rw [hpv2]; exact fun s h => Or.inl h
        · intro h
          exact absurd (hpv1.symm.trans h) (by decide)
        · intro _ _
          rw [hpv2, ← htr, hfv1]
          decide
      · -- mark 2: known not to reach a cycle
        have hfv2 : p.2.finalv (p.2.trans etat ((i : Nat) : Int)) = 2 := by
          have := hinv.2.2.2.1 (p.2.trans etat ((i : Nat) : Int))
          omega
        have hpv1 : (einfStep m etat p i).1 = p.1 := by
          unfold einfStep
          dsimp only
          rw [if_neg hf1, if_neg hf0, hfv2]
          simp
        refine ⟨?_, ?_, ?_, ?_, ?_, ?_, ?_⟩
        · rw [hpv2]; exact hinv
        · rw [hpv1]; exact hflag
        · rw [hpv2]; exact hz
        · rw [hpv2]; exact fun s h => h
        · rw [hpv2]; exact fun s h => Or.inl h
        · rw [hpv1]
          intro h
          refine ⟨h, Or.inr ?_⟩
          have := hinv.2.2.1 _ hfv2
          rw [htr] at this
          exact this
        · intro _ _
          rw [hpv2, ← htr, hfv2]
          decide

/-- The letter loop of `emonde_inf_rec` (the whole `foldl`): iterated
version of `einfStep_spec`. -/
theorem einfLoop_spec (a0 : Automaton) (m : Nat) (S : List Int) (etat : Int)
    (hIH : ∀ (b : Automaton) (T : List Int) (e : Int),
      einfInv a0 b T → b.finalv e = 0 →
      (∀ s ∈ T, Relation.ReflTransGen (stepR a0) s e) →
      zerosA b < m → einfRecPost a0 b T e (einfRec m b e))
    (hstack : ∀ s ∈ S ++ [etat], Relation.ReflTransGen (stepR a0) s etat) :
    ∀ (ls : List Nat), (∀ i ∈ ls, i < a0.na) →
    ∀ (p : Bool × Automaton),
      einfInv a0 p.2 (S ++ [etat]) →
      (p.1 = true → reachesCycle a0 etat) →
      zerosA p.2 < m →
      einfInv a0 (ls.foldl (einfStep m etat) p).2 (S ++ [etat]) ∧
      ((ls.foldl (einfStep m etat) p).1 = true → reachesCycle a0 etat) ∧
      zerosA (ls.foldl (einfStep m etat) p).2 < m ∧
      (∀ s : Int, (ls.foldl (einfStep m etat) p).2.finalv s = 0 →
        p.2.finalv s = 0) ∧
      (∀ s : Int, (ls.foldl (einfStep m etat) p).2.finalv s ≠ 0 →
        p.2.finalv s ≠ 0 ∨ Relation.ReflTransGen (stepR a0) etat s) ∧
      ((ls.foldl (einfStep m etat) p).1 = false → p.1 = false ∧
        ∀ i ∈ ls, a0.trans etat ((i : Nat) : Int) = -1 ∨
          ¬ reachesCycle a0 (a0.trans etat ((i : Nat) : Int))) ∧
      (∀ i ∈ ls, a0.trans etat ((i : Nat) : Int) ≠ -1 →
        inRangeI a0 (a0.trans etat ((i : Nat) : Int)) →
        (ls.foldl (einfStep m etat) p).2.finalv
          (a0.trans etat ((i : Nat) : Int)) ≠ 0) := by
  intro ls
  induction ls with
  | nil =>
    intro _ p hinv hflag hz
    exact ⟨hinv, hflag, hz, fun s h => h, fun s h => Or.inl h,
      fun h => ⟨h, fun i hi => absurd hi (List.not_mem_nil _)⟩,
      fun i hi => absurd hi (List.not_mem_nil _)⟩
  | cons i rest ih =>
    intro hls p hinv hflag hz
    have hi : i < a0.na := hls i (List.mem_cons_self i rest)
    obtain ⟨A, B, C, D, E, F, G⟩ :=
      einfStep_spec a0 m S etat hIH hstack i hi p hinv hflag hz
    obtain ⟨A2, B2, C2, D2, E2, F2, G2⟩ :=
      ih (fun j hj => hls j (List.mem_cons_of_mem i hj))
        (einfStep m etat p i) A B C
    rw [List.foldl_cons]
    refine ⟨A2, B2, C2, ?_, ?_, ?_, ?_⟩
    · intro s h
      exact D s (D2 s h)
    · intro s h
      rcases E2 s h with h2 | h2
      · exact E s h2
      · exact Or.inr h2
    · intro h
      obtain ⟨hpf, hrestlist⟩ := F2 h
      obtain ⟨hp1, hentry⟩ := F hpf
      refine ⟨hp1, ?_⟩
      intro j hj
      rcases List.mem_cons.mp hj with rfl | hj2
      · exact hentry
      · exact hrestlist j hj2
    · intro j hj hne hr
      rcases List.mem_cons.mp hj with rfl | hj2
      · intro h0
        exact G hne hr (D2 _ h0)
      · exact G2 j hj2 hne hr

theorem einfStep_foldl_id (m : Nat) (etat : Int) (b : Automaton)
    (hb : ∀ j : Int, b.trans etat j = -1) :
    ∀ (ls : List Nat) (p : Bool × Automaton), p.2 = b →
      ls.foldl (einfStep m etat) p = p := by
  intro ls
  induction ls with
  | nil => intro p _; rfl
  | cons i rest ih =>
    intro p hp
    rw [List.foldl_cons]
    have hstep : einfStep m etat p i = p := by
      unfold einfStep
      dsimp only
      rw [hp, hb ((i : Nat) : Int), if_pos rfl]
    rw [hstep]
    exact ih p hp

/-- Full specification of `emonde_inf_rec` (automataC.c:1141), by
induction on the fuel: under the DFS invariant, with all stack states
reaching `etat`, an unvisited `etat` and enough fuel, the call
re-establishes the invariant with `etat` popped, erases no mark, marks
only states reachable from `etat`, returns `true` iff `etat` reaches a
cycle, and leaves a valid `etat` marked. -/
theorem einfRec_spec : ∀ (fuel : Nat) (a0 b : Automaton) (S : List Int)
    (etat : Int),
    einfInv a0 b S → b.finalv etat = 0 →
    (∀ s ∈ S, Relation.ReflTransGen (stepR a0) s etat) →
    zerosA b < fuel →
    einfRecPost a0 b S etat (einfRec fuel b etat) := by
  intro fuel
  induction fuel with
  | zero =>
    intro a0 b S etat _ _ _ hfuel
    exact absurd hfuel (by omega)
  | succ m ih =>
    intro a0 b S etat hinv hm0 hstack hfuel
    by_cases hrange : inRangeI a0 etat
    · -- a valid state: the scan really runs
      have hn : b.n = a0.n := sameSkel_n hinv.1
      have h0 : 0 ≤ etat := hrange.1
      have hltb : etat < (b.n : Int) := by rw [hn]; exact hrange.2
      have hptm := finalv_setFinal b etat 1 h0 hltb
      have hinvm : einfInv a0 (b.setFinal etat 1) (S ++ [etat]) := by
        obtain ⟨hskel, h1, h2, hle, hcl⟩ := hinv
        refine ⟨sameSkel_comp hskel (sameSkel_setFinal b etat 1), ?_, ?_, ?_, ?_⟩
        · intro s hs
          rw [hptm s] at hs
          by_cases hse : s = etat
          · left; rw [hse]; simp
          · rw [if_neg hse] at hs
            rcases h1 s hs with hmem | hrc
            · left; exact List.mem_append_left _ hmem
            · right; exact hrc
        · intro s hs
          rw [hptm s] at hs
          by_cases hse : s = etat
          · rw [if_pos hse] at hs
            exact absurd hs (by decide)
          · rw [if_neg hse] at hs
            exact h2 s hs
        · intro s
          rw [hptm s]
          by_cases hse : s = etat
          · rw [if_pos hse]; omega
          · rw [if_neg hse]; exact hle s
        · intro s hs
          rw [hptm s] at hs
          by_cases hse : s = etat
          · left; rw [hse]; simp
          · rw [if_neg hse] at hs
            rcases hcl s hs with hmem | hclosed
            · left; exact List.mem_append_left _ hmem
            · right
              intro t ht hrt
              rw [hptm t]
              by_cases hte : t = etat
              · rw [if_pos hte]; decide
              · rw [if_neg hte]; exact hclosed t ht hrt
      have hstack2 : ∀ s ∈ S ++ [etat],
          Relation.ReflTransGen (stepR a0) s etat := by
        intro s hs
        rcases List.mem_append.mp hs with h | h
        · exact hstack s h
        · rw [List.mem_singleton.mp h]
      have hzm : zerosA (b.setFinal etat 1) < m := by
        have := zerosA_lt_setFinal b etat 1 h0 hltb hm0 (by decide)
        omega
      have hflag0 : ((false : Bool), b.setFinal etat 1).1 = true →
          reachesCycle a0 etat := by
        intro h
        exact Bool.noConfusion h
      have hmem2 : ∀ i ∈ List.range (b.setFinal etat 1).na, i < a0.na := by
        intro i hi2
        rw [List.mem_range, setFinal_na] at hi2
        have hba : b.na = a0.na := hinv.1.1
        omega
      obtain ⟨LA, LB, LC, LD, LE, LF, LG⟩ :=
        einfLoop_spec a0 m S etat (ih a0) hstack2
          (List.range (b.setFinal etat 1).na) hmem2
          ((false : Bool), b.setFinal etat 1) hinvm hflag0 hzm
      have hclosedEtat : ∀ t : Int, stepR a0 etat t → inRangeI a0 t →
          ((List.range (b.setFinal etat 1).na).foldl (einfStep m etat)
            ((false : Bool), b.setFinal etat 1)).2.finalv t ≠ 0 := by
        intro t hst hrt
        obtain ⟨j, hj, htr2, hne2⟩ := hst
        have hjm : j ∈ List.range (b.setFinal etat 1).na := by
          rw [List.mem_range, setFinal_na]
          have hba : b.na = a0.na := hinv.1.1
          omega
        have h6 := LG j hjm
        rw [htr2] at h6
        exact h6 hne2 hrt
      have hltQ : etat < ((((List.range (b.setFinal etat 1).na).foldl
          (einfStep m etat) ((false : Bool), b.setFinal etat 1)).2.n : Nat) : Int) := by
        rw [sameSkel_n LA.1]
        exact hrange.2
      rw [einfRec_succ]
      dsimp only
      by_cases hqf : ((List.range (b.setFinal etat 1).na).foldl (einfStep m etat)
          ((false : Bool), b.setFinal etat 1)).1 = false
      · -- no cycle found through `etat`: it is popped with mark 2
        rw [if_pos hqf]
        have hnRC : ¬ reachesCycle a0 etat := by
          intro hRC
          obtain ⟨t, hst, hRCt⟩ := reachesCycle_step hRC
          obtain ⟨j, hj, htr2, hne2⟩ := hst
          have hjm : j ∈ List.range (b.setFinal etat 1).na := by
            rw [List.mem_range, setFinal_na]
            have hba : b.na = a0.na := hinv.1.1
            omega
          rcases (LF hqf).2 j hjm with hcase | hcase
          · rw [htr2] at hcase
            exact hne2 hcase
          · rw [htr2] at hcase
            exact hcase hRCt
        obtain ⟨Lskel, L1, L2, Lle, Lcl⟩ := LA
        have hpt2 := finalv_setFinal _ etat 2 h0 hltQ
        unfold einfRecPost
        dsimp only
        refine ⟨⟨sameSkel_comp Lskel (sameSkel_setFinal _ etat 2), ?_, ?_, ?_, ?_⟩,
          ?_, ?_, ?_, fun _ => hnRC, ?_⟩
        · intro s hs
          rw [hpt2 s] at hs
          by_cases hse : s = etat
          · rw [if_pos hse] at hs
            exact absurd hs (by decide)
          · rw [if_neg hse] at hs
            rcases L1 s hs with hmem | hrc
            · rcases List.mem_append.mp hmem with h | h
              · left; exact h
              · exact absurd (List.mem_singleton.mp h) hse
            · right; exact hrc
        · intro s hs
          rw [hpt2 s] at hs
          by_cases hse : s = etat
          · rw [hse]
            exact hnRC
          · rw [if_neg hse] at hs
            exact L2 s hs
        · intro s
          rw [hpt2 s]
          by_cases hse : s = etat
          · rw [if_pos hse]
          · rw [if_neg hse]; exact Lle s
        · intro s hs
          rw [hpt2 s] at hs
          by_cases hse : s = etat
          · right
            intro t ht hrt
            rw [hpt2 t]
            by_cases hte : t = etat
            · rw [if_pos hte]; decide
            · rw [if_neg hte]
              rw [hse] at ht
              exact hclosedEtat t ht hrt
          · rw [if_neg hse] at hs
            rcases Lcl s hs with hmem | hclosed
            · rcases List.mem_append.mp hmem with h | h
              · left; exact h
              · exact absurd (List.mem_singleton.mp h) hse
            · right
              intro t ht hrt
              rw [hpt2 t]
              by_cases hte : t = etat
              · rw [if_pos hte]; decide
              · rw [if_neg hte]
                exact hclosed t ht hrt
        · intro s hs
          rw [hpt2 s] at hs
          by_cases hse : s = etat
          · rw [if_pos hse] at hs
            exact absurd hs (by decide)
          · rw [if_neg hse] at hs
            have hd := LD s hs
            rw [hptm s, if_neg hse] at hd
            exact hd
        · intro s hs
          rw [hpt2 s] at hs
          by_cases hse : s = etat
          · right
            rw [hse]
          · rw [if_neg hse] at hs
            rcases LE s hs with h | h
            · rw [hptm s, if_neg hse] at h
              exact Or.inl h
            · exact Or.inr h
        · intro h
          exact absurd h (by decide)
        · intro _
          rw [hpt2 etat, if_pos rfl]
          decide
      · -- a cycle was found: `etat` keeps mark 1
        rw [if_neg hqf]
        have hqt : ((List.range (b.setFinal etat 1).na).foldl (einfStep m etat)
            ((false : Bool), b.setFinal etat 1)).1 = true := by
          cases hq2 : ((List.range (b.setFinal etat 1).na).foldl (einfStep m etat)
              ((false : Bool), b.setFinal etat 1)).1 with
          | false => exact absurd hq2 hqf
          | true => rfl
        have hRCe : reachesCycle a0 etat := LB hqt
        obtain ⟨Lskel, L1, L2, Lle, Lcl⟩ := LA
        unfold einfRecPost
        dsimp only
        refine ⟨⟨Lskel, ?_, L2, Lle, ?_⟩, ?_, ?_, fun _ => hRCe, ?_, ?_⟩
        · intro s hs
          rcases L1 s hs with hmem | hrc
          · rcases List.mem_append.mp hmem with h | h
            · left; exact h
            · right
              rw [List.mem_singleton.mp h]
              exact hRCe
          · right; exact hrc
        · intro s hs
          rcases Lcl s hs with hmem | hclosed
          · rcases List.mem_append.mp hmem with h | h
            · left; exact h
            · right
              rw [List.mem_singleton.mp h]
              exact hclosedEtat
          · right; exact hclosed
        · intro s hs
          have hd := LD s hs
          rw [hptm s] at hd
          by_cases hse : s = etat
          · rw [if_pos hse] at hd
            exact absurd hd (by decide)
          · rw [if_neg hse] at hd
            exact hd
        · intro s hs
          rcases LE s hs with h | h
          · rw [hptm s] at h
            by_cases hse : s = etat
            · right
              rw [hse]
            · rw [if_neg hse] at h
              exact Or.inl h
          · exact Or.inr h
        · intro h
          exact Bool.noConfusion h
        · intro _
          intro h0
          have hd := LD etat h0
          rw [hptm etat, if_pos rfl] at hd
          exact absurd hd (by decide)
    · -- an out-of-range state: the call is a no-op returning `false`
      have hoor : etat < 0 ∨ ((b.n : Nat) : Int) ≤ etat := by
        unfold inRangeI at hrange
        have hn : b.n = a0.n := sameSkel_n hinv.1
        rw [hn]
        omega
      have hbm : b.setFinal etat 1 = b := setFinal_oor b etat 1 hoor
      have htrall : ∀ j : Int, b.trans etat j = -1 :=
        fun j => trans_oor b etat j hoor
      have hres : einfRec (m + 1) b etat = (false, b) := by
        rw [einfRec_succ]
        dsimp only
        rw [hbm, einfStep_foldl_id m etat b htrall (List.range b.na)
          ((false : Bool), b) rfl]
        rw [if_pos rfl, setFinal_oor b etat 2 hoor]
      rw [hres]
      unfold einfRecPost
      dsimp only
      refine ⟨hinv, fun s h => h, fun s h => Or.inl h, ?_, ?_, ?_⟩
      · intro h
        exact absurd h (by decide)
      · intro _ hRC
        obtain ⟨t, hst, _⟩ := reachesCycle_step hRC
        exact absurd (stepR_src_inRange hst) hrange
      · intro hr
        exact absurd hr hrange

theorem finalv_zeroFinals (a : Automaton) (s : Int) :
    (zeroFinals a).finalv s = 0 := by
  show ((zeroFinals a).state s).final = 0
  unfold Automaton.state zeroFinals
  by_cases hs : s < 0
  · rw [if_pos hs]; rfl
  · rw [if_neg hs]
    dsimp only
    by_cases hlt : s.toNat < a.e.length
    · rw [getD_lt _ _ _ (by rw [List.length_map]; omega), List.getElem_map]
    · rw [getD_ge _ _ _ (by rw [List.length_map]; omega)]
      rfl

/-- With an empty stack, every marked state propagates its mark along
any path it starts (`einfInv` closedness, iterated). -/
theorem marked_of_reach {a0 c : Automaton} (hinv : einfInv a0 c [])
    {u s : Int} (hreach : Relation.ReflTransGen (stepR a0) u s)
    (hu : c.finalv u ≠ 0) : inRangeI a0 s → c.finalv s ≠ 0 := by
  induction hreach with
  | refl => intro _; exact hu
  | tail hab hbc ih2 =>
    intro hs
    have hb := ih2 (stepR_src_inRange hbc)
    rcases hinv.2.2.2.2 _ hb with hmem | hclosed
    · exact absurd hmem (List.not_mem_nil _)
    · exact hclosed _ hbc hs

/-- The marks left by the `emonde_inf` scan: bounded by 2, and mark 1
characterises exactly the states that are reachable from the initial
state and start an infinite run. -/
theorem einfMarked_spec (a : Automaton) :
    (∀ s : Int, (einfMarked a).finalv s ≤ 2) ∧
    (∀ s : Int, ((einfMarked a).finalv s = 1 ↔
      reachableFromInit a s ∧ reachesCycle a s)) := by
  unfold einfMarked
  by_cases hi : a.i ≠ -1
  · rw [if_pos hi]
    have hinv0 : einfInv a (zeroFinals a) [] := by
      refine ⟨zeroFinals_sameSkel a, ?_, ?_, ?_, ?_⟩
      · intro t ht
        rw [finalv_zeroFinals] at ht
        exact absurd ht (by decide)
      · intro t ht
        rw [finalv_zeroFinals] at ht
        exact absurd ht (by decide)
      · intro t
        rw [finalv_zeroFinals]
        omega
      · intro t ht
        rw [finalv_zeroFinals] at ht
        exact absurd rfl ht
    have hz0 : zerosA (zeroFinals a) < a.n + 1 := by
      unfold zerosA
      have hle := List.countP_le_length (fun et => et.final == 0)
        (l := (zeroFinals a).e)
      have hlen : (zeroFinals a).e.length = a.n := by
        show (a.e.map _).length = a.e.length
        rw [List.length_map]
      omega
    obtain ⟨Pinv, P2, P3, P4, P5, P6⟩ :=
      einfRec_spec (a.n + 1) a (zeroFinals a) [] a.i hinv0
        (finalv_zeroFinals a a.i) (fun s hs => absurd hs (List.not_mem_nil _)) hz0
    constructor
    · exact Pinv.2.2.2.1
    · intro s
      constructor
      · intro h1
        have hRC : reachesCycle a s := by
          rcases Pinv.2.1 s h1 with hmem | hrc
          · exact absurd hmem (List.not_mem_nil _)
          · exact hrc
        have hne : (einfRec (a.n + 1) (zeroFinals a) a.i).2.finalv s ≠ 0 := by
          rw [h1]
          decide
        rcases P3 s hne with h | h
        · rw [finalv_zeroFinals] at h
          exact absurd rfl h
        · exact ⟨⟨hi, h⟩, hRC⟩
      · rintro ⟨⟨-, hreach⟩, hRC⟩
        have hsr : inRangeI a s := by
          obtain ⟨t, hst, -⟩ := reachesCycle_step hRC
          exact stepR_src_inRange hst
        have hmark : (einfRec (a.n + 1) (zeroFinals a) a.i).2.finalv s ≠ 0 := by
          rcases Relation.ReflTransGen.cases_head hreach with heq | ⟨v, hstep, hrest⟩
          · rw [← heq]
            exact P6 (by rw [heq]; exact hsr)
          · have hir : inRangeI a a.i := stepR_src_inRange hstep
            exact marked_of_reach Pinv hreach (P6 hir) hsr
        have hle := Pinv.2.2.2.1 s
        have hne2 : (einfRec (a.n + 1) (zeroFinals a) a.i).2.finalv s ≠ 2 := by
          intro h2
          exact Pinv.2.2.1 s h2 hRC
        omega
  · rw [if_neg hi]
    constructor
    · intro s
      rw [finalv_zeroFinals]
      omega
    · intro s
      rw [finalv_zeroFinals]
      constructor
      · intro h
        exact absurd h (by decide)
      · rintro ⟨⟨hne, -⟩, -⟩
        exact absurd (not_not.mp hi) hne

/-! #### Access lemmas for `lArray` and `pruneBuild` -/

theorem rankOf_succ (keep : Nat → Bool) (n : Nat) :
    rankOf keep (n + 1) = rankOf keep n + (if keep n then 1 else 0) := by
  unfold rankOf
  rw [List.range_succ, List.filter_append, List.length_append]
  by_cases h : keep n
  · rw [if_pos h]
    simp [h]
  · rw [if_neg h]
    simp [h]

theorem lArray_eq (keep : Nat → Bool) : ∀ n : Nat,
    ((List.range n).foldl (fun (p : List Int × Nat) (i : Nat) =>
      if keep i then (p.1 ++ [(p.2 : Int)], p.2 + 1)
      else (p.1 ++ [-1], p.2)) (([] : List Int), 0))
    = ((List.range n).map
        (fun s => if keep s then ((rankOf keep s : Nat) : Int) else -1),
       rankOf keep n) := by
  intro n
  induction n with
  | zero => simp [rankOf]
  | succ k ih =>
    rw [List.range_succ, List.foldl_append, ih, List.foldl_cons, List.foldl_nil,
      List.map_append]
    by_cases h : keep k
    · rw [if_pos h]
      dsimp only
      rw [rankOf_succ, if_pos h]
      simp [h]
    · rw [if_neg h]
      dsimp only
      rw [rankOf_succ, if_neg h]
      simp [h]

theorem lArray_eq_map (keep : Nat → Bool) (n : Nat) :
    lArray n keep = (List.range n).map
      (fun s => if keep s then ((rankOf keep s : Nat) : Int) else -1) := by
  unfold lArray
  rw [lArray_eq keep n]

theorem lArray_length (keep : Nat → Bool) (n : Nat) :
    (lArray n keep).length = n := by
  rw [lArray_eq_map]
  simp

theorem lArray_getD (keep : Nat → Bool) (n s : Nat) (hs : s < n) :
    (lArray n keep).getD s (-1)
      = if keep s then ((rankOf keep s : Nat) : Int) else -1 := by
  rw [lArray_eq_map]
  exact getD_map_range n _ s (-1) hs

theorem igetI_lArray (keep : Nat → Bool) (n : Nat) (t : Int) :
    igetI (lArray n keep) t
      = if 0 ≤ t ∧ t < (n : Int) ∧ keep t.toNat = true
        then ((rankOf keep t.toNat : Nat) : Int) else -1 := by
  unfold igetI
  by_cases h0 : t < 0
  · rw [if_pos h0, if_neg (fun hc => absurd hc.1 (by omega))]
  · rw [if_neg h0]
    by_cases hn2 : t < (n : Int)
    · rw [lArray_getD keep n t.toNat (by omega)]
      by_cases hk : keep t.toNat = true
      · rw [if_pos hk, if_pos ⟨by omega, hn2, hk⟩]
      · rw [if_neg hk, if_neg (fun hc => hk hc.2.2)]
    · rw [getD_ge _ _ _ (by rw [lArray_length]; omega),
        if_neg (fun hc => absurd hc.2.1 hn2)]

theorem pruneBuild_n (b : Automaton) (keep : Nat → Bool) (finof : Nat → Nat) :
    (pruneBuild b keep finof).n = ((List.range b.n).filter keep).length := by
  show (((List.range b.n).filter keep).map _).length = _
  rw [List.length_map]

theorem pruneBuild_state (b : Automaton) (keep : Nat → Bool) (finof : Nat → Nat)
    (k : Nat) (hk : k < ((List.range b.n).filter keep).length) :
    (pruneBuild b keep finof).state ((k : Nat) : Int)
      = { f := (List.range b.na).map (fun (j : Nat) =>
            let fv := b.trans
              ((((List.range b.n).filter keep).get ⟨k, hk⟩ : Nat) : Int)
              ((j : Nat) : Int)
            if fv = -1 then -1 else igetI (lArray b.n keep) fv),
          final := finof (((List.range b.n).filter keep).get ⟨k, hk⟩) } := by
  rw [state_nat]
  show (((List.range b.n).filter keep).map _).getD k default = _
  rw [getD_lt _ _ _ (by rw [List.length_map]; exact hk), List.getElem_map,
    List.get_eq_getElem]

theorem pruneBuild_finalv (b : Automaton) (keep : Nat → Bool) (finof : Nat → Nat)
    (k : Nat) (hk : k < ((List.range b.n).filter keep).length) :
    (pruneBuild b keep finof).finalv ((k : Nat) : Int)
      = finof (((List.range b.n).filter keep).get ⟨k, hk⟩) := by
  show ((pruneBuild b keep finof).state _).final = _
  rw [pruneBuild_state b keep finof k hk]

theorem pruneBuild_trans (b : Automaton) (keep : Nat → Bool) (finof : Nat → Nat)
    (k : Nat) (hk : k < ((List.range b.n).filter keep).length)
    (j : Nat) (hj : j < b.na) :
    (pruneBuild b keep finof).trans ((k : Nat) : Int) ((j : Nat) : Int)
      = (let fv := b.trans
            ((((List.range b.n).filter keep).get ⟨k, hk⟩ : Nat) : Int)
            ((j : Nat) : Int)
         if fv = -1 then -1 else igetI (lArray b.n keep) fv) := by
  unfold Automaton.trans
  rw [if_neg (by omega), pruneBuild_state b keep finof k hk]
  dsimp only
  rw [Int.toNat_natCast]
  exact getD_map_range b.na _ j (-1) hj

theorem finauxOf_getD (a : Automaton) (i : Nat) (h : i < a.n) :
    (finauxOf a).getD i 0 = a.finalv ((i : Nat) : Int) := by
  unfold finauxOf
  rw [getD_lt _ _ _ (by rw [List.length_map]; exact h), List.getElem_map,
    finalv_getD a _ (by omega), Int.toNat_natCast, getD_lt _ _ _ h]

theorem and_one_eq_one_iff (m : Nat) (hm : m ≤ 2) : m &&& 1 = 1 ↔ m = 1 := by
  rcases m with _ | _ | _ | m
  · decide
  · decide
  · decide
  · omega

/-- C5 (amended): `emonde_inf` keeps a state iff it is BOTH reachable
from the initial state AND starts an infinite run (lies on or reaches a
cycle of the transition graph) — the original claim omits the
reachability requirement (the scan is launched from the initial state
only, automataC.c:1220-1221).  Kept states are renumbered in increasing
order of original index (state `s` becomes `rankOf` of `s`, its position
among the kept states), each kept state keeps its original finality,
transitions into discarded states are removed (`-1`), and the initial
state is mapped the same way. -/
theorem c5_emonde_inf_characterization (a : Automaton) :
    (∀ s : Nat, s < a.n →
      (einfKeep a s = true ↔
        reachableFromInit a ((s : Nat) : Int) ∧
        reachesCycle a ((s : Nat) : Int))) ∧
    (emonde_inf a).1.n = ((List.range a.n).filter (einfKeep a)).length ∧
    (emonde_inf a).1.na = a.na ∧
    (∀ k : Nat, k < ((List.range a.n).filter (einfKeep a)).length →
      (emonde_inf a).1.finalv ((k : Nat) : Int)
        = a.finalv ((((List.range a.n).filter (einfKeep a)).getD k 0 : Nat) : Int) ∧
      ∀ j : Nat, j < a.na →
        (emonde_inf a).1.trans ((k : Nat) : Int) ((j : Nat) : Int)
          = pruneTarget a.n (einfKeep a)
              (a.trans ((((List.range a.n).filter (einfKeep a)).getD k 0 : Nat) : Int)
                ((j : Nat) : Int))) ∧
    (emonde_inf a).1.i = pruneTarget a.n (einfKeep a) a.i := by
  have hsk : sameSkel a (einfMarked a) := einfMarked_sameSkel a
  have hn : (einfMarked a).n = a.n := sameSkel_n hsk
  have hna : (einfMarked a).na = a.na := hsk.1
  have hspec := einfMarked_spec a
  have hr : (emonde_inf a).1 = pruneBuild (einfMarked a) (einfKeep a)
      (fun i => (finauxOf a).getD i 0) := rfl
  refine ⟨?_, ?_, ?_, ?_, ?_⟩
  · intro s _
    unfold einfKeep
    simp only [decide_eq_true_eq]
    rw [and_one_eq_one_iff _ (hspec.1 _)]
    exact hspec.2 _
  · rw [hr, pruneBuild_n, hn]
  · rw [hr]
    show (einfMarked a).na = a.na
    exact hna
  · intro k hk
    have hk2 : k < ((List.range (einfMarked a).n).filter (einfKeep a)).length := by
      rw [hn]
      exact hk
    have hget : ((List.range (einfMarked a).n).filter (einfKeep a)).get ⟨k, hk2⟩
        = ((List.range a.n).filter (einfKeep a)).getD k 0 := by
      rw [List.get_eq_getElem, ← getD_lt _ _ _ hk2, hn]
    have hmem : ((List.range a.n).filter (einfKeep a)).getD k 0
        ∈ (List.range a.n).filter (einfKeep a) := by
      rw [getD_lt _ _ _ hk]
      exact List.getElem_mem hk
    have hbound : ((List.range a.n).filter (einfKeep a)).getD k 0 < a.n :=
      List.mem_range.mp (List.mem_filter.mp hmem).1
    constructor
    · rw [hr, pruneBuild_finalv (einfMarked a) (einfKeep a)
        (fun i => (finauxOf a).getD i 0) k hk2]
      rw [hget]
      exact finauxOf_getD a _ hbound
    · intro j hj
      rw [hr, pruneBuild_trans (einfMarked a) (einfKeep a)
        (fun i => (finauxOf a).getD i 0) k hk2 j (by rw [hna]; exact hj)]
      dsimp only
      rw [hget, sameSkel_trans_eq hsk, hn]
      by_cases hfv : a.trans ((((List.range a.n).filter (einfKeep a)).getD k 0
          : Nat) : Int) ((j : Nat) : Int) = -1
      · rw [if_pos hfv, hfv]
        unfold pruneTarget
        rw [if_neg (fun hc => absurd hc.1 (by decide))]
      · rw [if_neg hfv]
        unfold pruneTarget
        exact igetI_lArray (einfKeep a) a.n _
  · rw [hr]
    show (if (einfMarked a).i ≠ -1
      then igetI (lArray (einfMarked a).n (einfKeep a)) (einfMarked a).i
      else -1) = pruneTarget a.n (einfKeep a) a.i
    rw [hsk.2.1, hn]
    by_cases hai : a.i ≠ -1
    · rw [if_pos hai]
      exact igetI_lArray (einfKeep a) a.n a.i
    · rw [if_neg hai]
      have hieq : a.i = -1 := not_not.mp hai
      unfold pruneTarget
      rw [if_neg (fun hc => by rw [hieq] at hc; exact absurd hc.1 (by decide))]

/-- Witness for C5 (amended) at the concrete automaton `a5`: its state 1
is a valid index, and the keep-characterization instantiates there. -/
theorem c5_emonde_inf_characterization_witness :
    1 < a5.n ∧
    (einfKeep a5 1 = true ↔
      reachableFromInit a5 ((1 : Nat) : Int) ∧
      reachesCycle a5 ((1 : Nat) : Int)) :=
  ⟨by decide, (c5_emonde_inf_characterization a5).1 1 (by decide)⟩

end AC

